import Mathlib

/-!
# gsl_vector.h: strided vectors over flat memory

Shallow embedding of `src/include/gsl/gsl_vector.h`.

* `size_t` and pointers are 64 bits wide, `unsigned int` 32 bits wide. Every
  product or sum the source computes on a `size_t` is reduced modulo `2 ^ 64`,
  the loop counters `unsigned int i` modulo `2 ^ 32`.
* The element type `T` has `sizeof(T) = 2 ^ k` bytes (1, 2, 4, 8 or 16 for the
  arithmetic types) and a pointer `T*` is aligned to it. Memory is one flat
  store of such cells: an address is the byte address divided by `sizeof(T)`,
  a number below `2 ^ 64 / sizeof(T)`, and pointer arithmetic, which the
  machine does on byte addresses modulo `2 ^ 64`, is arithmetic on cell
  addresses modulo `2 ^ 64 / sizeof(T)`.
* A byte count `n * sizeof(T)` handed to `memcpy` is a `size_t` product; the
  copy moves the whole cells it covers.
* A `for` loop is run with a budget of loop tests (`fuel`); the result records
  the memory reached and whether the loop had exited.
* `new[]` and `delete[]` belong to the C++ runtime: the block `new[]` hands
  back is a parameter of the allocating functions, and the addresses handed to
  `delete[]` are kept in a list.
* A descriptor is a value: an operation that only reads it (`vector_set`,
  the copies, the arithmetic) returns the store alone.
-/

namespace gsl

/-- Number of values of a `size_t`. -/
def SIZE_MOD : Nat := 2 ^ 64

/-- Number of values of an `unsigned int`. -/
def UINT_MOD : Nat := 2 ^ 32

/-- An element type of the template: `sizeof(T)` is `2 ^ log2_sizeof` bytes. -/
class Element (T : Type) where
  log2_sizeof : Nat

/-- The constant `sizeof(T)`. -/
def SIZEOF (T : Type) [Element T] : Nat := 2 ^ Element.log2_sizeof T

/-- Number of cells of type `T` in the 64-bit address space,
`2 ^ 64 / sizeof(T)`. -/
def ADDR_MOD (T : Type) [Element T] : Nat := 2 ^ (64 - Element.log2_sizeof T)

/-- The integers stand for a 64-bit integer type (`long`), 8 bytes. -/
instance : Element Int := ⟨3⟩

/-- A `float` as far as `isnan` tells: a number or the NaN. -/
inductive Floating where
  | number (x : Int)
  | nan
  deriving DecidableEq

/-- A `float` has 4 bytes. -/
instance : Element Floating := ⟨2⟩

/-- The predicate `isnan(x)` on a `float`. -/
def isnan : Floating → Bool
  | .nan => true
  | .number _ => false

/-- The store: the element found at every address. -/
abbrev Heap (T : Type) := Nat → T

/-- Store `x` at address `p` (the assignment `*p = x`). -/
def Heap.write {T : Type} (h : Heap T) (p : Nat) (x : T) : Heap T :=
  fun a => if a = p then x else h a

/-- The descriptor `struct vector { size_t size, stride; T* data; }`. -/
structure vector (T : Type) where
  size : Nat
  stride : Nat
  data : Nat
  deriving DecidableEq

/-- Address of `v->data[i * v->stride]`: the product is a `size_t`, the
indexing pointer arithmetic. -/
def slot {T : Type} [Element T] (v : vector T) (i : Nat) : Nat :=
  (v.data + (i * v.stride) % SIZE_MOD) % ADDR_MOD T

/-- What a loop has done once its budget of loop tests is used up or it has
exited: the state reached, and whether the loop exited. -/
structure Run (σ : Type) where
  state : σ
  finished : Bool

/-- The loop `for (unsigned int i = i0; i < bound; ++i) body(i)`, run for at
most `fuel` evaluations of the test `i < bound`. -/
def for_loop {σ : Type} (bound : Nat) (body : Nat → σ → σ) : Nat → Nat → σ → Run σ
  | 0, _, s => ⟨s, false⟩
  | fuel + 1, i, s =>
    if i < bound then for_loop bound body fuel ((i + 1) % UINT_MOD) (body i s)
    else ⟨s, true⟩

/-- Copy of `c` cells from address `src` to address `dst`, read from the store
as it was before the copy (the regions must not overlap in C). -/
def memcpy_cells {T : Type} [Element T] (h : Heap T) (dst src : Nat) : Nat → Heap T
  | 0 => h
  | k + 1 =>
    (memcpy_cells h dst src k).write ((dst + k) % ADDR_MOD T) (h ((src + k) % ADDR_MOD T))

/-- The library call `memcpy(dst, src, n * sizeof(T))`: the byte count is the
`size_t` product `n * sizeof(T)`, which covers that many bytes divided by
`sizeof(T)` cells. -/
def memcpy {T : Type} [Element T] (h : Heap T) (dst src n : Nat) : Heap T :=
  memcpy_cells h dst src ((n * SIZEOF T) % SIZE_MOD / SIZEOF T)

/-- The library call `memset(p, 0, n * sizeof(T))` on the block of `n`
elements that `new T[n]` has just handed back (its byte size
`n * sizeof(T)` is that of an object, so the product does not wrap): the `n`
elements become the zero of `T`. -/
def memset_zero {T : Type} [Zero T] [Element T] (h : Heap T) (p : Nat) : Nat → Heap T
  | 0 => h
  | k + 1 => (memset_zero h p k).write ((p + k) % ADDR_MOD T) 0

/-- `vector_alloc<T>(n)`. The outcome of `new T[n]` is the argument `blk`:
`none` when it throws, `some p` when it returns the block at address `p`.
`assert(vec.data != 0)` aborts on a null address. -/
def vector_alloc {T : Type} (blk : Option Nat) (n : Nat) : Option (vector T) :=
  match blk with
  | none => none
  | some p => if p = 0 then none else some { size := n, stride := 1, data := p }

/-- `vector_calloc<T>(n)`: the new vector and the store after the `memset`. -/
def vector_calloc {T : Type} [Zero T] [Element T] (h : Heap T) (blk : Option Nat) (n : Nat) :
    Option (vector T × Heap T) :=
  match vector_alloc blk n with
  | none => none
  | some vec => some (vec, memset_zero h vec.data n)

/-- `vector_set(v, i, x)`. -/
def vector_set {T : Type} [Element T] (h : Heap T) (v : vector T) (i : Nat) (x : T) : Heap T :=
  h.write (slot v i) x

/-- `vector_get(v, i)`. -/
def vector_get {T : Type} [Element T] (h : Heap T) (v : vector T) (i : Nat) : T :=
  h (slot v i)

/-- `vector_set_all(v, x)`. -/
def vector_set_all {T : Type} [Element T] (fuel : Nat) (h : Heap T) (v : vector T) (x : T) :
    Run (Heap T) :=
  for_loop v.size (fun i s => vector_set s v i x) fuel 0 h

/-- The loop of `vector_any_isnan`, from counter value `i`; `none` when the
budget of loop tests ends before a `return`. -/
def any_isnan_loop {T : Type} [Element T] (isnan : T → Bool) (h : Heap T) (v : vector T) :
    Nat → Nat → Option Bool
  | 0, _ => none
  | fuel + 1, i =>
    if i < v.size then
      if isnan (vector_get h v i) then some true
      else any_isnan_loop isnan h v fuel ((i + 1) % UINT_MOD)
    else some false

/-- `vector_any_isnan(v)`, the predicate `isnan` of the element type given. -/
def vector_any_isnan {T : Type} [Element T] (isnan : T → Bool) (fuel : Nat) (h : Heap T)
    (v : vector T) : Option Bool :=
  any_isnan_loop isnan h v fuel 0

/-- `vector_subvector(vec, offset, n)`. -/
def vector_subvector {T : Type} [Element T] (vec : vector T) (offset n : Nat) : vector T :=
  { size := n
    data := (vec.data + (offset * vec.stride) % SIZE_MOD) % ADDR_MOD T
    stride := vec.stride }

/-- `vector_view_array(base, n)`. -/
def vector_view_array {T : Type} (base n : Nat) : vector T :=
  { size := n, data := base, stride := 1 }

/-- `vector_view_array(const T* base, n)`, the overload for a read-only
buffer; the `const_cast` leaves the address as it is. -/
def vector_view_array_const {T : Type} (base n : Nat) : vector T :=
  { size := n, data := base, stride := 1 }

/-- `vector_subvec_memcpy(dest_vec, dest_offset, src_vec, src_offset, len)`. -/
def vector_subvec_memcpy {T : Type} [Element T] (fuel : Nat) (h : Heap T) (dest_vec : vector T)
    (dest_offset : Nat) (src_vec : vector T) (src_offset len : Nat) : Run (Heap T) :=
  if dest_vec.stride = 1 ∧ src_vec.stride = 1 then
    ⟨memcpy h ((dest_vec.data + dest_offset) % ADDR_MOD T)
      ((src_vec.data + src_offset) % ADDR_MOD T) len, true⟩
  else
    for_loop len
      (fun i s => vector_set s dest_vec ((i + dest_offset) % SIZE_MOD)
        (vector_get s src_vec src_offset)) fuel 0 h

/-- `vector_memcpy(vector<T>* x, const vector<T>* y)`. -/
def vector_memcpy {T : Type} [Element T] (fuel : Nat) (h : Heap T) (x y : vector T) :
    Run (Heap T) :=
  if x.stride = 1 ∧ y.stride = 1 then
    ⟨memcpy h x.data y.data x.size, true⟩
  else
    for_loop x.size (fun i s => vector_set s x i (vector_get s y i)) fuel 0 h

/-- `vector_memcpy(vector<T>* x, const T* y)`. -/
def vector_memcpy_from_array {T : Type} [Element T] (fuel : Nat) (h : Heap T) (x : vector T)
    (y : Nat) : Run (Heap T) :=
  if x.stride = 1 then
    ⟨memcpy h x.data y x.size, true⟩
  else
    for_loop x.size (fun i s => vector_set s x i (s ((y + i) % ADDR_MOD T))) fuel 0 h

/-- `vector_memcpy(T* x, const vector<T>* y)`. -/
def vector_memcpy_to_array {T : Type} [Element T] (fuel : Nat) (h : Heap T) (x : Nat)
    (y : vector T) : Run (Heap T) :=
  if y.stride = 1 then
    ⟨memcpy h x y.data y.size, true⟩
  else
    for_loop y.size (fun i s => s.write ((x + i) % ADDR_MOD T) (vector_get s y i)) fuel 0 h

/-- `vector_scale(a, x)`. -/
def vector_scale {T : Type} [Mul T] [Element T] (fuel : Nat) (h : Heap T) (a : vector T)
    (x : T) : Run (Heap T) :=
  for_loop a.size (fun i s => s.write (slot a i) (s (slot a i) * x)) fuel 0 h

/-- `vector_add(a, b)`. -/
def vector_add {T : Type} [Add T] [Element T] (fuel : Nat) (h : Heap T) (a b : vector T) :
    Run (Heap T) :=
  for_loop a.size (fun i s => s.write (slot a i) (s (slot a i) + s (slot b i))) fuel 0 h

/-- `vector_sub(a, b)`. -/
def vector_sub {T : Type} [Sub T] [Element T] (fuel : Nat) (h : Heap T) (a b : vector T) :
    Run (Heap T) :=
  for_loop a.size (fun i s => s.write (slot a i) (s (slot a i) - s (slot b i))) fuel 0 h

/-- `vector_mul(a, b)`. -/
def vector_mul {T : Type} [Mul T] [Element T] (fuel : Nat) (h : Heap T) (a b : vector T) :
    Run (Heap T) :=
  for_loop a.size (fun i s => s.write (slot a i) (s (slot a i) * s (slot b i))) fuel 0 h

/-- `vector_div(a, b)`. -/
def vector_div {T : Type} [Div T] [Element T] (fuel : Nat) (h : Heap T) (a b : vector T) :
    Run (Heap T) :=
  for_loop a.size (fun i s => s.write (slot a i) (s (slot a i) / s (slot b i))) fuel 0 h

/-- `vector_add_constant(a, x)`. -/
def vector_add_constant {T : Type} [Add T] [Element T] (fuel : Nat) (h : Heap T) (a : vector T)
    (x : T) : Run (Heap T) :=
  for_loop a.size (fun i s => s.write (slot a i) (s (slot a i) + x)) fuel 0 h

/-- `vector_free(x)`. The operator `delete[]` belongs to the C++ runtime: the
model keeps the list `released` of the addresses handed to it so far. The
descriptor is received by pointer; the result is the descriptor as the call
leaves it, and the list after the call. -/
def vector_free {T : Type} (released : List Nat) (x : vector T) : vector T × List Nat :=
  if x.data ≠ 0 then (x, released ++ [x.data]) else (x, released)

/-- A way to obtain a vector from the library alone: one call of a
constructor, then any number of `vector_subvector` calls. -/
inductive Construction (T : Type) where
  | alloc (blk : Option Nat) (n : Nat)
  | calloc (h : Heap T) (blk : Option Nat) (n : Nat)
  | view_array (base n : Nat)
  | view_array_const (base n : Nat)
  | subvector (c : Construction T) (offset n : Nat)

/-- The descriptor a construction yields, `none` when its allocation fails. -/
def Construction.result {T : Type} [Zero T] [Element T] : Construction T → Option (vector T)
  | .alloc blk n => vector_alloc blk n
  | .calloc h blk n => (vector_calloc h blk n).map Prod.fst
  | .view_array base n => some (vector_view_array base n)
  | .view_array_const base n => some (vector_view_array_const base n)
  | .subvector c offset n => (Construction.result c).map (fun v => vector_subvector v offset n)

/-- The elements of `v` occupy pairwise different addresses. -/
def distinct_slots {T : Type} [Element T] (v : vector T) : Prop :=
  ∀ i, i < v.size → ∀ j, j < v.size → slot v i = slot v j → i = j

instance {T : Type} [Element T] (v : vector T) : Decidable (distinct_slots v) := by
  unfold distinct_slots
  infer_instance

/-- No element of `x` lies at the address of an element of `y`. -/
def separate {T : Type} [Element T] (x y : vector T) : Prop :=
  ∀ i, i < x.size → ∀ j, j < y.size → slot x i ≠ slot y j

instance {T : Type} [Element T] (x y : vector T) : Decidable (separate x y) := by
  unfold separate
  infer_instance

/-- A store holding the list `l` from address `0` on and `d` everywhere else. -/
def Heap.ofList {T : Type} (l : List T) (d : T) : Heap T :=
  fun a => l.getD a d

/-- The first `k` rounds of a loop body, counter values `0, 1, …, k - 1`. -/
def rounds {σ : Type} (body : Nat → σ → σ) : Nat → σ → σ
  | 0, s => s
  | k + 1, s => body k (rounds body k s)

/-! ## The store -/

@[simp] theorem Heap.write_same {T : Type} (h : Heap T) (p : Nat) (x : T) :
    h.write p x p = x := by
  simp [Heap.write]

theorem Heap.write_other {T : Type} (h : Heap T) (p q : Nat) (x : T) (hne : q ≠ p) :
    h.write p x q = h q := by
  simp [Heap.write, hne]

theorem Heap.write_self {T : Type} (h : Heap T) (p : Nat) : h.write p (h p) = h := by
  funext a
  by_cases ha : a = p <;> simp [Heap.write, ha]

/-! ## Addresses -/

theorem addr_mod_pos (T : Type) [Element T] : 0 < ADDR_MOD T := by
  unfold ADDR_MOD
  positivity

theorem addr_mod_dvd (T : Type) [Element T] : ADDR_MOD T ∣ SIZE_MOD := by
  unfold ADDR_MOD SIZE_MOD
  exact pow_dvd_pow 2 (Nat.sub_le 64 _)

theorem addr_mod_int : ADDR_MOD Int = 2 ^ 61 := rfl

/-- A `size_t` value used as an index is only seen modulo the address
space. -/
theorem add_size_mod (T : Type) [Element T] (a b : Nat) :
    (a + b % SIZE_MOD) % ADDR_MOD T = (a + b) % ADDR_MOD T := by
  rw [Nat.add_mod, Nat.mod_mod_of_dvd b (addr_mod_dvd T), ← Nat.add_mod]

theorem slot_eq {T : Type} [Element T] (v : vector T) (i : Nat) :
    slot v i = (v.data + i * v.stride) % ADDR_MOD T :=
  add_size_mod T _ _

/-- Two offsets from one base land on one address exactly when they agree
modulo the address space. -/
theorem add_mod_cancel_left {m : Nat} (d a b : Nat) (e : (d + a) % m = (d + b) % m) :
    a % m = b % m :=
  Nat.ModEq.add_left_cancel' d e

theorem add_mod_congr_left {m : Nat} (d a b : Nat) (e : a % m = b % m) :
    (d + a) % m = (d + b) % m :=
  Nat.ModEq.add_left d e

theorem slot_subvector {T : Type} [Element T] (v : vector T) (offset n j : Nat) :
    slot (vector_subvector v offset n) j = slot v (offset + j) := by
  rw [slot_eq, slot_eq]
  simp only [vector_subvector]
  rw [add_size_mod, Nat.mod_add_mod, Nat.add_mul, Nat.add_assoc]

theorem slot_mod {T : Type} [Element T] (v : vector T) (i : Nat) :
    slot v (i % SIZE_MOD) = slot v i := by
  rw [slot_eq, slot_eq]
  apply add_mod_congr_left
  have h1 : (i % SIZE_MOD * v.stride) % SIZE_MOD = (i * v.stride) % SIZE_MOD := by
    rw [Nat.mod_mul_mod]
  have h2 := congrArg (fun t => t % ADDR_MOD T) h1
  simp only [Nat.mod_mod_of_dvd _ (addr_mod_dvd T)] at h2
  exact h2

theorem slot_stride_one {T : Type} [Element T] (v : vector T) (hs : v.stride = 1) (i : Nat) :
    slot v i = (v.data + i) % ADDR_MOD T := by
  rw [slot_eq, hs, Nat.mul_one]

/-- With stride 0 every logical index has the address `data`. -/
theorem slot_stride_zero {T : Type} [Element T] (v : vector T) (hs : v.stride = 0) (i : Nat) :
    slot v i = v.data % ADDR_MOD T := by
  rw [slot_eq, hs, Nat.mul_zero, Nat.add_zero]

/-- A vector of stride at least 1 whose last byte offset
`(size - 1) * stride * sizeof(T)` is below `2 ^ 64` has its elements at
pairwise different addresses. -/
theorem distinct_slots_of_stride {T : Type} [Element T] (v : vector T) (hs : 1 ≤ v.stride)
    (hfit : (v.size - 1) * v.stride < ADDR_MOD T) : distinct_slots v := by
  intro i hi j hj e
  have hi2 : i * v.stride ≤ (v.size - 1) * v.stride := Nat.mul_le_mul_right _ (by omega)
  have hj2 : j * v.stride ≤ (v.size - 1) * v.stride := Nat.mul_le_mul_right _ (by omega)
  rw [slot_eq, slot_eq] at e
  have hij := add_mod_cancel_left _ _ _ e
  rw [Nat.mod_eq_of_lt (by omega), Nat.mod_eq_of_lt (by omega)] at hij
  exact Nat.eq_of_mul_eq_mul_right hs hij

/-- Offsets below the size of the address space land on different
addresses. -/
theorem add_mod_inj {m : Nat} (d i j : Nat) (hi : i < m) (hj : j < m)
    (e : (d + i) % m = (d + j) % m) : i = j := by
  have hij := add_mod_cancel_left d i j e
  rwa [Nat.mod_eq_of_lt hi, Nat.mod_eq_of_lt hj] at hij

/-! ## Loops -/

theorem for_loop_rounds {σ : Type} (bound : Nat) (body : Nat → σ → σ) (s0 : σ)
    (hb : bound < UINT_MOD) :
    ∀ fuel i, i ≤ bound → bound - i < fuel →
      for_loop bound body fuel i (rounds body i s0) = ⟨rounds body bound s0, true⟩ := by
  intro fuel
  induction fuel with
  | zero => intro i _ h; omega
  | succ f ih =>
    intro i hi hf
    rw [for_loop]
    by_cases hlt : i < bound
    · rw [if_pos hlt]
      have hmod : (i + 1) % UINT_MOD = i + 1 := Nat.mod_eq_of_lt (by omega)
      rw [hmod]
      exact ih (i + 1) (by omega) (by omega)
    · rw [if_neg hlt]
      have hib : i = bound := by omega
      subst hib
      rfl

/-- A loop over fewer than `2 ^ 32` indices exits once it has more loop tests
than indices, having run its body on `0, …, bound - 1` in order. -/
theorem for_loop_exits {σ : Type} (bound : Nat) (body : Nat → σ → σ) (s : σ) (fuel : Nat)
    (hb : bound < UINT_MOD) (hf : bound < fuel) :
    for_loop bound body fuel 0 s = ⟨rounds body bound s, true⟩ :=
  for_loop_rounds bound body s hb fuel 0 (Nat.zero_le _) (by omega)

/-- With a bound of `2 ^ 32` or more the counter wraps to `0` before it
reaches the bound: the loop never exits. -/
theorem for_loop_never_exits {σ : Type} (bound : Nat) (body : Nat → σ → σ)
    (hb : UINT_MOD ≤ bound) :
    ∀ fuel i s, i < UINT_MOD → (for_loop bound body fuel i s).finished = false := by
  intro fuel
  induction fuel with
  | zero => intro i s _; rfl
  | succ f ih =>
    intro i s hi
    rw [for_loop, if_pos (by omega)]
    exact ih _ _ (Nat.mod_lt _ (by unfold UINT_MOD; norm_num))

/-- A property of the state kept by every round of the body holds of
whatever state the loop reaches. -/
theorem for_loop_invariant {σ : Type} (bound : Nat) (body : Nat → σ → σ) (P : σ → Prop)
    (hbody : ∀ i s, i < UINT_MOD → i < bound → P s → P (body i s)) :
    ∀ fuel i s, i < UINT_MOD → P s → P (for_loop bound body fuel i s).state := by
  intro fuel
  induction fuel with
  | zero => intro i s _ hs; exact hs
  | succ f ih =>
    intro i s hi hs
    rw [for_loop]
    by_cases hlt : i < bound
    · rw [if_pos hlt]
      exact ih _ _ (Nat.mod_lt _ (by unfold UINT_MOD; norm_num)) (hbody i s hi hlt hs)
    · rw [if_neg hlt]
      exact hs

/-- Rounds that write only at `addr i` leave every other address alone. -/
theorem rounds_frame {T : Type} (body : Nat → Heap T → Heap T) (addr : Nat → Nat)
    (hbody : ∀ i s p, p ≠ addr i → body i s p = s p) (h : Heap T) :
    ∀ k p, (∀ i, i < k → addr i ≠ p) → rounds body k h p = h p := by
  intro k
  induction k with
  | zero => intro p _; rfl
  | succ k ih =>
    intro p hp
    rw [rounds, hbody k _ p (fun e => hp k (Nat.lt_succ_self k) e.symm)]
    exact ih p (fun i hi => hp i (Nat.lt_succ_of_lt hi))

/-! ## Bulk copies and fills -/

/-- The cells that `n * sizeof(T)` bytes cover: `n` of them, counted modulo
the address space. -/
theorem byte_count_cells (T : Type) [Element T] (n : Nat) :
    (n * SIZEOF T) % SIZE_MOD / SIZEOF T = n % ADDR_MOD T := by
  unfold SIZEOF SIZE_MOD ADDR_MOD
  by_cases hk : Element.log2_sizeof T ≤ 64
  · have hsplit : 2 ^ 64 = 2 ^ (64 - Element.log2_sizeof T) * 2 ^ Element.log2_sizeof T := by
      rw [← pow_add, Nat.sub_add_cancel hk]
    rw [hsplit, Nat.mul_mod_mul_right, Nat.mul_div_cancel _ (by positivity)]
  · have hk2 : 64 - Element.log2_sizeof T = 0 := by omega
    have hdvd : 2 ^ 64 ∣ n * 2 ^ Element.log2_sizeof T :=
      Dvd.dvd.mul_left (pow_dvd_pow 2 (by omega)) n
    rw [hk2, Nat.mod_eq_zero_of_dvd hdvd, Nat.zero_div, pow_zero, Nat.mod_one]

theorem memcpy_cells_at {T : Type} [Element T] (h : Heap T) (d s : Nat) :
    ∀ n k, k < n →
      memcpy_cells h d s n ((d + k) % ADDR_MOD T) = h ((s + k) % ADDR_MOD T) := by
  intro n
  induction n with
  | zero => intro k hk; omega
  | succ n ih =>
    intro k hk
    rw [memcpy_cells]
    by_cases e : (d + k) % ADDR_MOD T = (d + n) % ADDR_MOD T
    · rw [e, Heap.write_same]
      congr 1
      exact add_mod_congr_left s n k (add_mod_cancel_left d k n e).symm
    · rw [Heap.write_other _ _ _ _ e]
      have hkn : k ≠ n := fun hkn => e (by rw [hkn])
      exact ih k (by omega)

theorem memcpy_cells_frame {T : Type} [Element T] (h : Heap T) (d s : Nat) :
    ∀ n p, (∀ k, k < n → (d + k) % ADDR_MOD T ≠ p) → memcpy_cells h d s n p = h p := by
  intro n
  induction n with
  | zero => intro p _; rfl
  | succ n ih =>
    intro p hp
    rw [memcpy_cells, Heap.write_other _ _ _ _ (fun e => hp n (Nat.lt_succ_self n) e.symm)]
    exact ih p (fun k hk => hp k (Nat.lt_succ_of_lt hk))

/-- A `memcpy` of `n` elements whose byte count does not wrap
(`n * sizeof(T) < 2 ^ 64`) moves each of them. -/
theorem memcpy_at {T : Type} [Element T] (h : Heap T) (d s n : Nat) (hn : n < ADDR_MOD T) :
    ∀ k, k < n → memcpy h d s n ((d + k) % ADDR_MOD T) = h ((s + k) % ADDR_MOD T) := by
  intro k hk
  rw [memcpy, byte_count_cells, Nat.mod_eq_of_lt hn]
  exact memcpy_cells_at h d s n k hk

/-- A `memcpy` of `n` elements leaves alone every address outside the `n`
cells from `d` on. -/
theorem memcpy_frame {T : Type} [Element T] (h : Heap T) (d s n : Nat) :
    ∀ p, (∀ k, k < n → (d + k) % ADDR_MOD T ≠ p) → memcpy h d s n p = h p := by
  intro p hp
  rw [memcpy, byte_count_cells]
  exact memcpy_cells_frame h d s _ p
    (fun k hk => hp k (Nat.lt_of_lt_of_le hk (Nat.mod_le _ _)))

theorem memset_zero_at {T : Type} [Zero T] [Element T] (h : Heap T) (p : Nat) :
    ∀ n k, k < n → memset_zero h p n ((p + k) % ADDR_MOD T) = 0 := by
  intro n
  induction n with
  | zero => intro k hk; omega
  | succ n ih =>
    intro k hk
    rw [memset_zero]
    by_cases e : (p + k) % ADDR_MOD T = (p + n) % ADDR_MOD T
    · rw [e, Heap.write_same]
    · rw [Heap.write_other _ _ _ _ e]
      have hkn : k ≠ n := fun hkn => e (by rw [hkn])
      exact ih k (by omega)

/-! ## Element-by-element copy -/

theorem copy_rounds {T : Type} [Element T] (h : Heap T) (x y : vector T) (n : Nat)
    (hx : ∀ i, i < n → ∀ j, j < n → slot x i = slot x j → i = j)
    (hsep : ∀ i, i < n → ∀ j, j < n → slot x i ≠ slot y j) :
    ∀ k, k ≤ n →
      (∀ p, (∀ i, i < k → slot x i ≠ p) →
        rounds (fun i s => vector_set s x i (vector_get s y i)) k h p = h p)
      ∧ ∀ i, i < k →
        rounds (fun i s => vector_set s x i (vector_get s y i)) k h (slot x i) = h (slot y i) := by
  intro k
  induction k with
  | zero => intro _; exact ⟨fun _ _ => rfl, fun i hi => absurd hi (Nat.not_lt_zero i)⟩
  | succ k ih =>
    intro hk
    obtain ⟨ihf, ihv⟩ := ih (by omega)
    have hread : rounds (fun i s => vector_set s x i (vector_get s y i)) k h (slot y k)
        = h (slot y k) :=
      ihf _ (fun i hi => hsep i (by omega) k (by omega))
    constructor
    · intro p hp
      rw [rounds]
      simp only [vector_set, vector_get]
      rw [Heap.write_other _ _ _ _ (fun e => hp k (Nat.lt_succ_self k) e.symm)]
      exact ihf p (fun i hi => hp i (Nat.lt_succ_of_lt hi))
    · intro i hi
      rw [rounds]
      simp only [vector_set, vector_get]
      by_cases hik : i = k
      · subst hik
        rw [Heap.write_same]
        exact hread
      · have hne : slot x i ≠ slot x k := fun e => hik (hx i (by omega) k (by omega) e)
        rw [Heap.write_other _ _ _ _ hne]
        exact ihv i (by omega)

/-! ## Elementwise arithmetic -/

/-- Rounds that replace the element at `addr i` by `f` of it, the addresses
`addr 0, …, addr (n - 1)` being pairwise different. -/
theorem rounds_update {T : Type} (h : Heap T) (addr : Nat → Nat) (f : T → T) (n : Nat)
    (hinj : ∀ i, i < n → ∀ j, j < n → addr i = addr j → i = j) :
    ∀ k, k ≤ n → ∀ i, i < k →
      rounds (fun i s => s.write (addr i) (f (s (addr i)))) k h (addr i) = f (h (addr i)) := by
  intro k
  induction k with
  | zero => intro _ i hi; omega
  | succ k ih =>
    intro hk i hi
    rw [rounds]
    by_cases hik : i = k
    · subst hik
      rw [Heap.write_same]
      congr 1
      exact rounds_frame _ addr (fun j s p hp => Heap.write_other s _ p _ hp) h i (addr i)
        (fun j hj e => absurd (hinj j (by omega) i (by omega) e) (by omega))
    · rw [Heap.write_other _ _ _ _ (fun e => hik (hinj i (by omega) k (by omega) e))]
      exact ih (by omega) i (by omega)

/-- What `vector_add` has added at address `p` after `k` rounds, the source
elements never being written. -/
theorem add_rounds {T : Type} [AddCommGroup T] [Element T] (h : Heap T) (a b : vector T) (n : Nat)
    (hsep : ∀ i, i < n → ∀ j, j < n → slot a i ≠ slot b j) :
    ∀ k, k ≤ n → ∀ p,
      rounds (fun i s => s.write (slot a i) (s (slot a i) + s (slot b i))) k h p
        = h p + ∑ i in Finset.range k, (if slot a i = p then h (slot b i) else 0) := by
  intro k
  induction k with
  | zero => intro _ p; simp [rounds]
  | succ k ih =>
    intro hk p
    have hread : rounds (fun i s => s.write (slot a i) (s (slot a i) + s (slot b i))) k h
        (slot b k) = h (slot b k) :=
      rounds_frame _ (slot a) (fun j s q hq => Heap.write_other s _ q _ hq) h k (slot b k)
        (fun i hi => hsep i (by omega) k (by omega))
    rw [rounds, Finset.sum_range_succ]
    by_cases hp : p = slot a k
    · subst hp
      rw [Heap.write_same, hread, ih (by omega), if_pos rfl, add_assoc]
    · rw [Heap.write_other _ _ _ _ hp, ih (by omega), if_neg (fun e => hp e.symm), add_zero]

/-- What `vector_sub` has subtracted at address `p` after `k` rounds. -/
theorem sub_rounds {T : Type} [AddCommGroup T] [Element T] (h : Heap T) (a b : vector T) (n : Nat)
    (hsep : ∀ i, i < n → ∀ j, j < n → slot a i ≠ slot b j) :
    ∀ k, k ≤ n → ∀ p,
      rounds (fun i s => s.write (slot a i) (s (slot a i) - s (slot b i))) k h p
        = h p - ∑ i in Finset.range k, (if slot a i = p then h (slot b i) else 0) := by
  intro k
  induction k with
  | zero => intro _ p; simp [rounds]
  | succ k ih =>
    intro hk p
    have hread : rounds (fun i s => s.write (slot a i) (s (slot a i) - s (slot b i))) k h
        (slot b k) = h (slot b k) :=
      rounds_frame _ (slot a) (fun j s q hq => Heap.write_other s _ q _ hq) h k (slot b k)
        (fun i hi => hsep i (by omega) k (by omega))
    rw [rounds, Finset.sum_range_succ]
    by_cases hp : p = slot a k
    · subst hp
      rw [Heap.write_same, hread, ih (by omega), if_pos rfl, sub_add_eq_sub_sub]
    · rw [Heap.write_other _ _ _ _ hp, ih (by omega), if_neg (fun e => hp e.symm), add_zero]

/-- Adding `b` to `a` and subtracting it again restores the whole store, when
no element of `a` lies at the address of an element of `b`. -/
theorem add_sub_rounds {T : Type} [AddCommGroup T] [Element T] (h : Heap T) (a b : vector T) (n : Nat)
    (hsep : ∀ i, i < n → ∀ j, j < n → slot a i ≠ slot b j) :
    rounds (fun i s => s.write (slot a i) (s (slot a i) - s (slot b i))) n
      (rounds (fun i s => s.write (slot a i) (s (slot a i) + s (slot b i))) n h) = h := by
  funext p
  rw [sub_rounds _ a b n hsep n (Nat.le_refl n) p, add_rounds h a b n hsep n (Nat.le_refl n) p]
  have hsum : ∑ i in Finset.range n,
      (if slot a i = p then
        rounds (fun i s => s.write (slot a i) (s (slot a i) + s (slot b i))) n h (slot b i)
      else 0)
      = ∑ i in Finset.range n, (if slot a i = p then h (slot b i) else 0) := by
    apply Finset.sum_congr rfl
    intro i hi
    rw [rounds_frame _ (slot a) (fun j s q hq => Heap.write_other s _ q _ hq) h n (slot b i)
      (fun j hj => hsep j hj i (Finset.mem_range.mp hi))]
  rw [hsum, add_sub_cancel_right]

/-! ## Scaling -/

theorem uint_mod_pos : 0 < UINT_MOD := by
  unfold UINT_MOD
  norm_num

/-- Below `2 ^ 32` elements `vector_scale` exits, having run one round an
element. -/
theorem vector_scale_exits {T : Type} [Mul T] [Element T] (fuel : Nat) (h : Heap T) (a : vector T) (x : T)
    (hlt : a.size < UINT_MOD) (hfuel : a.size < fuel) :
    vector_scale fuel h a x
      = ⟨rounds (fun i s => s.write (slot a i) (s (slot a i) * x)) a.size h, true⟩ :=
  for_loop_exits _ _ h fuel hlt hfuel

/-- After `k` rounds of scaling by zero the first `k` elements read zero,
whatever the stride. -/
theorem scale_zero_rounds {T : Type} [MulZeroClass T] [Element T] (h : Heap T) (a : vector T) :
    ∀ k i, i < k →
      rounds (fun i s => s.write (slot a i) (s (slot a i) * 0)) k h (slot a i) = 0 := by
  intro k
  induction k with
  | zero => intro i hi; omega
  | succ k ih =>
    intro i hi
    rw [rounds]
    by_cases e : slot a i = slot a k
    · rw [e, Heap.write_same, mul_zero]
    · rw [Heap.write_other _ _ _ _ e]
      have hik : i ≠ k := fun hik => e (by rw [hik])
      exact ih i (by omega)

/-- Below `2 ^ 32` elements, `vector_scale(v, 0)` returns with every element
of `v` zero. -/
theorem vector_scale_zero_small {T : Type} [MulZeroClass T] [Element T] (fuel : Nat) (h : Heap T)
    (v : vector T) (hlt : v.size < UINT_MOD) (hfuel : v.size < fuel) :
    (vector_scale fuel h v 0).finished = true
      ∧ ∀ i, i < v.size → vector_get (vector_scale fuel h v 0).state v i = 0 := by
  rw [vector_scale_exits fuel h v 0 hlt hfuel]
  exact ⟨rfl, fun i hi => scale_zero_rounds h v v.size i hi⟩

/-! ## NaN detection -/

theorem any_isnan_loop_small {T : Type} [Element T] (isnan : T → Bool) (h : Heap T) (v : vector T)
    (hlt : v.size < UINT_MOD) :
    ∀ fuel i, i ≤ v.size → v.size - i < fuel →
      ∃ r, any_isnan_loop isnan h v fuel i = some r
        ∧ (r = true ↔ ∃ j, i ≤ j ∧ j < v.size ∧ isnan (vector_get h v j) = true) := by
  intro fuel
  induction fuel with
  | zero => intro i _ hf; omega
  | succ f ih =>
    intro i hi hf
    rw [any_isnan_loop]
    by_cases hiv : i < v.size
    · rw [if_pos hiv]
      by_cases hnan : isnan (vector_get h v i) = true
      · rw [if_pos hnan]
        exact ⟨true, rfl, fun _ => ⟨i, Nat.le_refl i, hiv, hnan⟩, fun _ => rfl⟩
      · rw [if_neg hnan, Nat.mod_eq_of_lt (by omega : i + 1 < UINT_MOD)]
        obtain ⟨r, hr, hiff⟩ := ih (i + 1) (by omega) (by omega)
        refine ⟨r, hr, hiff.trans ⟨?_, ?_⟩⟩
        · rintro ⟨j, hj, hjv, hjn⟩
          exact ⟨j, by omega, hjv, hjn⟩
        · rintro ⟨j, hj, hjv, hjn⟩
          have hji : j ≠ i := fun e => hnan (e ▸ hjn)
          exact ⟨j, by omega, hjv, hjn⟩
    · rw [if_neg hiv]
      refine ⟨false, rfl, fun hc => absurd hc (by decide), ?_⟩
      rintro ⟨j, hj, hjv, _⟩
      omega

/-- Below `2 ^ 32` elements `vector_any_isnan` returns, and returns `true`
exactly when some element satisfies the predicate. -/
theorem vector_any_isnan_small {T : Type} [Element T] (isnan : T → Bool) (fuel : Nat) (h : Heap T)
    (v : vector T) (hlt : v.size < UINT_MOD) (hfuel : v.size < fuel) :
    ∃ r, vector_any_isnan isnan fuel h v = some r
      ∧ (r = true ↔ ∃ i, i < v.size ∧ isnan (vector_get h v i) = true) := by
  obtain ⟨r, hr, hiff⟩ := any_isnan_loop_small isnan h v hlt fuel 0 (Nat.zero_le _) (by omega)
  refine ⟨r, hr, hiff.trans ⟨?_, ?_⟩⟩
  · rintro ⟨j, _, hjv, hjn⟩
    exact ⟨j, hjv, hjn⟩
  · rintro ⟨j, hjv, hjn⟩
    exact ⟨j, Nat.zero_le _, hjv, hjn⟩

/-- From `2 ^ 32` elements on, none of the first `2 ^ 32` a NaN, the loop of
`vector_any_isnan` reaches no `return`. -/
theorem any_isnan_loop_never {T : Type} [Element T] (isnan : T → Bool) (h : Heap T) (v : vector T)
    (hge : UINT_MOD ≤ v.size) (hno : ∀ i, i < UINT_MOD → isnan (vector_get h v i) = false) :
    ∀ fuel i, i < UINT_MOD → any_isnan_loop isnan h v fuel i = none := by
  intro fuel
  induction fuel with
  | zero => intro i _; rfl
  | succ f ih =>
    intro i hi
    rw [any_isnan_loop, if_pos (by omega), hno i hi]
    exact ih _ (Nat.mod_lt _ uint_mod_pos)

/-! ## Filling and adding a constant -/

/-- Below `2 ^ 32` elements `vector_set_all` exits after one write an element,
and every element reads `x`, whatever the stride. -/
theorem vector_set_all_small {T : Type} [Element T] (fuel : Nat) (h : Heap T) (v : vector T) (x : T)
    (hlt : v.size < UINT_MOD) (hfuel : v.size < fuel) :
    vector_set_all fuel h v x = ⟨rounds (fun i s => vector_set s v i x) v.size h, true⟩
      ∧ ∀ i, i < v.size → vector_get (vector_set_all fuel h v x).state v i = x := by
  have hrun : vector_set_all fuel h v x
      = ⟨rounds (fun i s => vector_set s v i x) v.size h, true⟩ :=
    for_loop_exits _ _ h fuel hlt hfuel
  refine ⟨hrun, ?_⟩
  rw [hrun]
  have key : ∀ k i, i < k → rounds (fun i s => vector_set s v i x) k h (slot v i) = x := by
    intro k
    induction k with
    | zero => intro i hi; omega
    | succ k ih =>
      intro i hi
      rw [rounds]
      simp only [vector_set]
      by_cases e : slot v i = slot v k
      · rw [e, Heap.write_same]
      · rw [Heap.write_other _ _ _ _ e]
        have hik : i ≠ k := fun hik => e (by rw [hik])
        exact ih i (by omega)
  exact fun i hi => key v.size i hi

/-- The `n` cells of a buffer of `n` elements (`n * sizeof(T)` at most
`2 ^ 64`) are pairwise different. -/
theorem view_slots_distinct {T : Type} [Element T] (base n : Nat) (hn : n ≤ ADDR_MOD T) :
    ∀ i, i < n → ∀ j, j < n →
      slot (vector_view_array base n : vector T) i = slot (vector_view_array base n : vector T) j →
      i = j := by
  intro i hi j hj e
  rw [slot_stride_one _ rfl, slot_stride_one _ rfl] at e
  exact add_mod_inj _ i j (by omega) (by omega) e

/-- On a view of a buffer of `n` elements, `n` below `2 ^ 32`,
`vector_add_constant` returns with `x` added to every element of the
buffer. -/
theorem vector_add_constant_view_small {T : Type} [Add T] [Element T] (fuel : Nat) (h : Heap T)
    (base n : Nat) (x : T) (hfit : n ≤ ADDR_MOD T) (hlt : n < UINT_MOD) (hfuel : n < fuel) :
    (vector_add_constant fuel h (vector_view_array base n) x).finished = true
      ∧ ∀ i, i < n →
          (vector_add_constant fuel h (vector_view_array base n) x).state ((base + i) % ADDR_MOD T)
            = h ((base + i) % ADDR_MOD T) + x := by
  have hrun : vector_add_constant fuel h (vector_view_array base n) x
      = ⟨rounds (fun i s => s.write (slot (vector_view_array base n : vector T) i)
          (s (slot (vector_view_array base n : vector T) i) + x)) n h, true⟩ :=
    for_loop_exits _ _ h fuel hlt hfuel
  rw [hrun]
  refine ⟨rfl, fun i hi => ?_⟩
  have hs : slot (vector_view_array base n : vector T) i = (base + i) % ADDR_MOD T :=
    slot_stride_one _ rfl i
  rw [← hs]
  exact rounds_update h (slot (vector_view_array base n : vector T)) (fun t => t + x) n
    (view_slots_distinct base n hfit) n (Nat.le_refl n) i hi

/-- The scenario of the specification: the buffer `{1, 2, 3, 4}` viewed with
`vector_view_array` and `vector_add_constant(view, 1)` becomes
`{2, 3, 4, 5}`. -/
theorem vector_add_constant_scenario :
    (vector_add_constant 5 (Heap.ofList [1, 2, 3, 4] (0 : Int)) (vector_view_array 0 4) 1).finished
        = true
      ∧ (List.range 4).map
          (vector_add_constant 5 (Heap.ofList [1, 2, 3, 4] (0 : Int))
            (vector_view_array 0 4) 1).state
        = [2, 3, 4, 5] := by
  decide

/-! ## Rounds that combine two elements -/

/-- Rounds that write `g (s (dst i)) (s (src i))` at `dst i`, the addresses
`dst 0, …, dst (n - 1)` pairwise different and no `src i` written by an
earlier round: element `i` ends as `g` of the two original values. -/
theorem zip_rounds {T : Type} (h : Heap T) (dst src : Nat → Nat) (g : T → T → T) (n : Nat)
    (hinj : ∀ i, i < n → ∀ j, j < n → dst i = dst j → i = j)
    (hsep : ∀ i, i < n → ∀ j, j < i → dst j ≠ src i) :
    ∀ k, k ≤ n → ∀ i, i < k →
      rounds (fun i s => s.write (dst i) (g (s (dst i)) (s (src i)))) k h (dst i)
        = g (h (dst i)) (h (src i)) := by
  intro k
  induction k with
  | zero => intro _ i hi; omega
  | succ k ih =>
    intro hk i hi
    rw [rounds]
    by_cases hik : i = k
    · subst hik
      rw [Heap.write_same]
      congr 1
      · exact rounds_frame _ dst (fun j s p hp => Heap.write_other s _ p _ hp) h i (dst i)
          (fun j hj e => absurd (hinj j (by omega) i (by omega) e) (by omega))
      · exact rounds_frame _ dst (fun j s p hp => Heap.write_other s _ p _ hp) h i (src i)
          (fun j hj => hsep i (by omega) j hj)
    · rw [Heap.write_other _ _ _ _ (fun e => hik (hinj i (by omega) k (by omega) e))]
      exact ih (by omega) i (by omega)

/-! ## The copy between offsets -/

/-- Rounds of the element-by-element path of `vector_subvec_memcpy`: the
source element at `src_offset` keeps its value, and every destination element
written so far holds it. -/
theorem subvec_copy_rounds {T : Type} [Element T] (h : Heap T) (dest src : vector T)
    (dest_offset src_offset : Nat) :
    ∀ k,
      rounds (fun i s => vector_set s dest ((i + dest_offset) % SIZE_MOD)
          (vector_get s src src_offset)) k h (slot src src_offset) = h (slot src src_offset)
      ∧ ∀ i, i < k →
        rounds (fun i s => vector_set s dest ((i + dest_offset) % SIZE_MOD)
          (vector_get s src src_offset)) k h (slot dest (dest_offset + i))
          = h (slot src src_offset) := by
  intro k
  induction k with
  | zero => exact ⟨rfl, fun i hi => absurd hi (Nat.not_lt_zero i)⟩
  | succ k ih =>
    obtain ⟨ihs, ihd⟩ := ih
    have hw : ∀ p,
        rounds (fun i s => vector_set s dest ((i + dest_offset) % SIZE_MOD)
          (vector_get s src src_offset)) (k + 1) h p
        = if p = slot dest (dest_offset + k) then h (slot src src_offset)
          else rounds (fun i s => vector_set s dest ((i + dest_offset) % SIZE_MOD)
            (vector_get s src src_offset)) k h p := by
      intro p
      rw [rounds]
      show Heap.write (rounds _ k h) (slot dest ((k + dest_offset) % SIZE_MOD))
        (rounds _ k h (slot src src_offset)) p = _
      rw [ihs, slot_mod, Nat.add_comm k dest_offset]
      rfl
    constructor
    · rw [hw]
      split
      · rfl
      · exact ihs
    · intro i hi
      rw [hw]
      split
      · rfl
      · rename_i hne
        have hik : i ≠ k := fun e => hne (by rw [e])
        exact ihd i (by omega)

/-- Below `2 ^ 32` elements the element-by-element path of
`vector_subvec_memcpy` returns, and every destination element
`dest_offset + i`, `i < len`, holds the source element at `src_offset`, for
every descriptor. -/
theorem vector_subvec_memcpy_slow_small {T : Type} [Element T] (fuel : Nat) (h : Heap T)
    (dest src : vector T) (dest_offset src_offset len : Nat)
    (hslow : ¬(dest.stride = 1 ∧ src.stride = 1)) (hlt : len < UINT_MOD) (hfuel : len < fuel) :
    (vector_subvec_memcpy fuel h dest dest_offset src src_offset len).finished = true
      ∧ ∀ i, i < len →
          vector_get (vector_subvec_memcpy fuel h dest dest_offset src src_offset len).state
              dest (dest_offset + i) = vector_get h src src_offset
          ∧ vector_get (vector_subvec_memcpy fuel h dest dest_offset src src_offset len).state
              src src_offset = vector_get h src src_offset := by
  have hrun : vector_subvec_memcpy fuel h dest dest_offset src src_offset len
      = ⟨rounds (fun i s => vector_set s dest ((i + dest_offset) % SIZE_MOD)
          (vector_get s src src_offset)) len h, true⟩ := by
    simp only [vector_subvec_memcpy, if_neg hslow]
    exact for_loop_exits _ _ h fuel hlt hfuel
  rw [hrun]
  obtain ⟨hs, hd⟩ := subvec_copy_rounds h dest src dest_offset src_offset len
  exact ⟨rfl, fun i hi => ⟨hd i hi, hs⟩⟩

/-! ## Descriptors made by the library -/

theorem vector_subvector_compose {T : Type} [Element T] (v : vector T) (o1 n1 o2 n2 : Nat) :
    vector_subvector (vector_subvector v o1 n1) o2 n2 = vector_subvector v (o1 + o2) n2 := by
  simp only [vector_subvector, vector.mk.injEq, true_and, and_true]
  rw [add_size_mod, add_size_mod, add_size_mod, Nat.mod_add_mod, Nat.add_mul, Nat.add_assoc]

theorem construction_stride {T : Type} [Zero T] [Element T] (c : Construction T) :
    ∀ v, Construction.result c = some v → v.stride = 1 := by
  induction c with
  | alloc blk n =>
    intro v hv
    cases blk with
    | none => simp [Construction.result, vector_alloc] at hv
    | some p =>
      by_cases hp : p = 0
      · simp [Construction.result, vector_alloc, hp] at hv
      · simp only [Construction.result, vector_alloc, if_neg hp, Option.some.injEq] at hv
        rw [← hv]
  | calloc h blk n =>
    intro v hv
    cases blk with
    | none => simp [Construction.result, vector_calloc, vector_alloc] at hv
    | some p =>
      by_cases hp : p = 0
      · simp [Construction.result, vector_calloc, vector_alloc, hp] at hv
      · simp only [Construction.result, vector_calloc, vector_alloc, if_neg hp, Option.map_some',
          Option.some.injEq] at hv
        rw [← hv]
  | view_array base n =>
    intro v hv
    simp only [Construction.result, Option.some.injEq] at hv
    rw [← hv]
    rfl
  | view_array_const base n =>
    intro v hv
    simp only [Construction.result, Option.some.injEq] at hv
    rw [← hv]
    rfl
  | subvector c offset n ih =>
    intro v hv
    simp only [Construction.result, Option.map_eq_some'] at hv
    obtain ⟨w, hw, rfl⟩ := hv
    exact ih w hw

/-! ## Scaling through a sub-view -/

/-- The elements of `v` at pairwise different addresses, the sub-view inside
`v` and of fewer than `2 ^ 32` elements: `vector_scale` on the sub-view
returns, and the parent reads `old(i) * x` for `offset ≤ i < offset + n` and
`old(i)` for every other `i < v.size`. -/
theorem vector_scale_subvector {T : Type} [Mul T] [Element T] (h : Heap T) (v : vector T)
    (offset n fuel : Nat) (x : T) (hv : distinct_slots v) (hn : offset + n ≤ v.size)
    (hlt : n < UINT_MOD) (hfuel : n < fuel) :
    (vector_scale fuel h (vector_subvector v offset n) x).finished = true
      ∧ ∀ i, i < v.size →
          vector_get (vector_scale fuel h (vector_subvector v offset n) x).state v i
            = if offset ≤ i ∧ i < offset + n then vector_get h v i * x else vector_get h v i := by
  rw [vector_scale_exits fuel h (vector_subvector v offset n) x hlt hfuel]
  refine ⟨rfl, fun i hi => ?_⟩
  simp only [vector_get, slot_subvector]
  show rounds (fun k s => s.write (slot v (offset + k)) (s (slot v (offset + k)) * x)) n h
      (slot v i) = _
  by_cases hin : offset ≤ i ∧ i < offset + n
  · rw [if_pos hin]
    obtain ⟨k, rfl⟩ : ∃ k, i = offset + k := ⟨i - offset, by omega⟩
    exact rounds_update h (fun k => slot v (offset + k)) (fun t => t * x) n
      (fun p hp q hq e => by have := hv _ (by omega) _ (by omega) e; omega)
      n (Nat.le_refl n) k (by omega)
  · rw [if_neg hin]
    exact rounds_frame _ (fun k => slot v (offset + k))
      (fun j s q hq => Heap.write_other s _ q _ hq) h n (slot v i)
      (fun k hk e => by have := hv _ (by omega) _ hi e; omega)

/-- The scenario of the specification: `v = {10, 20, 30, 40, 50}`;
`subvector(v, 1, 3)` reads `{20, 30, 40}`, and after scaling it by 2 the parent
reads `{10, 40, 60, 80, 50}`. -/
theorem vector_scale_subvector_scenario :
    (List.range 3).map
        (vector_get (Heap.ofList [10, 20, 30, 40, 50] (0 : Int)) (vector_subvector ⟨5, 1, 0⟩ 1 3))
        = [20, 30, 40]
    ∧ (vector_scale 4 (Heap.ofList [10, 20, 30, 40, 50] (0 : Int))
          (vector_subvector ⟨5, 1, 0⟩ 1 3) 2).finished = true
    ∧ (List.range 5).map
        (vector_get (vector_scale 4 (Heap.ofList [10, 20, 30, 40, 50] (0 : Int))
          (vector_subvector ⟨5, 1, 0⟩ 1 3) 2).state ⟨5, 1, 0⟩)
        = [10, 40, 60, 80, 50] := by
  decide

/-! ## Claims -/

/-- C1: writing `x` at logical index `i` with `vector_set` and reading index
`i` back with `vector_get` gives `x`, for every descriptor (any size, stride
and data address), every index and every value. -/
theorem vector_get_vector_set {T : Type} [Element T] (h : Heap T) (v : vector T) (i : Nat) (x : T) :
    vector_get (vector_set h v i x) v i = x := by
  simp [vector_get, vector_set]

/-- C2: element `j` of `vector_subvector(v, offset, n)` is element
`offset + j` of `v`, and the sub-view has size `n` and the stride of `v`. This
holds for every `v`, `offset`, `n` and `j`, in particular whenever
`offset + n ≤ v.size` and `j < n`. -/
theorem vector_subvector_get {T : Type} [Element T] (h : Heap T) (v : vector T) (offset n j : Nat) :
    vector_get h (vector_subvector v offset n) j = vector_get h v (offset + j)
      ∧ (vector_subvector v offset n).size = n
      ∧ (vector_subvector v offset n).stride = v.stride := by
  refine ⟨?_, rfl, rfl⟩
  simp only [vector_get, slot_subvector]

/-- C3 (as stated, refuted): `vector_memcpy` does not make `x` read like `y`
for every pair of same-size vectors. First pair (strides 2 and 2): `x` holds
addresses 0 and 2, `y` addresses 2 and 4 with elements 7 and 9; the copy
overwrites the first element of `y`, and afterwards `x[0] = 7`, `y[0] = 9`.
Second pair (strides `2 ^ 63` and 1): the product `2 * 2 ^ 63` wraps to 0 in
`size_t`, element 2 of `x` shares the address of element 0, and element 0 of
`x` ends as `y[2] = 3` while `y[0] = 1`. Third pair (strides 1 and 1, size `2 ^ 61`,
elements of 8 bytes): the byte count `2 ^ 61 * 8` wraps to 0 in `size_t`, the
`memcpy` copies nothing, and `x[0] = 5` stays different from `y[0] = 7`. -/
theorem vector_memcpy_counterexample :
    ((⟨2, 2, 0⟩ : vector Int).size = (⟨2, 2, 2⟩ : vector Int).size
      ∧ (vector_memcpy 3 (Heap.ofList [0, 0, 7, 0, 9] (0 : Int)) ⟨2, 2, 0⟩ ⟨2, 2, 2⟩).finished
          = true
      ∧ vector_get
          (vector_memcpy 3 (Heap.ofList [0, 0, 7, 0, 9] (0 : Int)) ⟨2, 2, 0⟩ ⟨2, 2, 2⟩).state
          ⟨2, 2, 0⟩ 0 = 7
      ∧ vector_get
          (vector_memcpy 3 (Heap.ofList [0, 0, 7, 0, 9] (0 : Int)) ⟨2, 2, 0⟩ ⟨2, 2, 2⟩).state
          ⟨2, 2, 2⟩ 0 = 9)
    ∧ ((⟨3, 2 ^ 63, 0⟩ : vector Int).size = (⟨3, 1, 1⟩ : vector Int).size
      ∧ separate (⟨3, 2 ^ 63, 0⟩ : vector Int) ⟨3, 1, 1⟩
      ∧ (vector_memcpy 4 (Heap.ofList [0, 1, 2, 3] (0 : Int)) ⟨3, 2 ^ 63, 0⟩ ⟨3, 1, 1⟩).finished
          = true
      ∧ vector_get
          (vector_memcpy 4 (Heap.ofList [0, 1, 2, 3] (0 : Int)) ⟨3, 2 ^ 63, 0⟩ ⟨3, 1, 1⟩).state
          ⟨3, 2 ^ 63, 0⟩ 0 = 3
      ∧ vector_get
          (vector_memcpy 4 (Heap.ofList [0, 1, 2, 3] (0 : Int)) ⟨3, 2 ^ 63, 0⟩ ⟨3, 1, 1⟩).state
          ⟨3, 1, 1⟩ 0 = 1)
    ∧ ((⟨2 ^ 61, 1, 0⟩ : vector Int).size = (⟨2 ^ 61, 1, 1⟩ : vector Int).size
      ∧ (2 ^ 61 * SIZEOF Int) % SIZE_MOD = 0
      ∧ (vector_memcpy 0 (Heap.ofList [5, 7] (0 : Int)) ⟨2 ^ 61, 1, 0⟩ ⟨2 ^ 61, 1, 1⟩).finished
          = true
      ∧ vector_get
          (vector_memcpy 0 (Heap.ofList [5, 7] (0 : Int)) ⟨2 ^ 61, 1, 0⟩ ⟨2 ^ 61, 1, 1⟩).state
          ⟨2 ^ 61, 1, 0⟩ 0 = 5
      ∧ vector_get
          (vector_memcpy 0 (Heap.ofList [5, 7] (0 : Int)) ⟨2 ^ 61, 1, 0⟩ ⟨2 ^ 61, 1, 1⟩).state
          ⟨2 ^ 61, 1, 1⟩ 0 = 7) := by
  decide

/-- C3 (amended): let `x` and `y` have the same size `n` with
`n * sizeof(T) < 2 ^ 64`, with no element of `x` at the address of an element
of `y`, and, unless both strides are 1, with the elements of `x` at pairwise
different addresses and fewer than `2 ^ 32` of them. Then `vector_memcpy(x, y)`
returns, and afterwards `vector_get(x, i)` equals `vector_get(y, i)`, which is
still the original `y[i]`, for every `i < n`. -/
theorem vector_memcpy_separate {T : Type} [Element T] (h : Heap T) (x y : vector T) (fuel : Nat)
    (hsize : x.size = y.size) (hfit : x.size < ADDR_MOD T) (hsep : separate x y)
    (hslow : ¬(x.stride = 1 ∧ y.stride = 1) → distinct_slots x ∧ x.size < UINT_MOD)
    (hfuel : x.size < fuel) :
    (vector_memcpy fuel h x y).finished = true
      ∧ ∀ i, i < x.size →
          vector_get (vector_memcpy fuel h x y).state x i
            = vector_get (vector_memcpy fuel h x y).state y i
          ∧ vector_get (vector_memcpy fuel h x y).state y i = vector_get h y i := by
  by_cases hfast : x.stride = 1 ∧ y.stride = 1
  · simp only [vector_memcpy, if_pos hfast, vector_get, true_and]
    intro i hi
    have hy : memcpy h x.data y.data x.size (slot y i) = h (slot y i) := by
      apply memcpy_frame
      intro k hk e
      exact hsep k hk i (hsize ▸ hi) (by rw [slot_stride_one x hfast.1]; exact e)
    rw [hy, slot_stride_one x hfast.1, memcpy_at h x.data y.data x.size hfit i hi,
      slot_stride_one y hfast.2]
    exact ⟨rfl, rfl⟩
  · obtain ⟨hx, hlt⟩ := hslow hfast
    simp only [vector_memcpy, if_neg hfast, for_loop_exits _ _ h fuel hlt hfuel, vector_get,
      true_and]
    obtain ⟨hf, hv⟩ := copy_rounds h x y x.size hx (fun i hi j hj => hsep i hi j (hsize ▸ hj))
      x.size (Nat.le_refl _)
    intro i hi
    have e1 := hv i hi
    have e2 := hf (slot y i) (fun k hk => hsep k hk i (hsize ▸ hi))
    exact ⟨e1.trans e2.symm, e2⟩

/-- Witness of C3 (amended): strides 2 and 1, three elements copied from
addresses 6, 7, 8 to addresses 0, 2, 4. -/
theorem vector_memcpy_separate_witness :
    ((⟨3, 2, 0⟩ : vector Int).size = (⟨3, 1, 6⟩ : vector Int).size
      ∧ (⟨3, 2, 0⟩ : vector Int).size < ADDR_MOD Int
      ∧ separate (⟨3, 2, 0⟩ : vector Int) ⟨3, 1, 6⟩
      ∧ (¬((⟨3, 2, 0⟩ : vector Int).stride = 1 ∧ (⟨3, 1, 6⟩ : vector Int).stride = 1) →
          distinct_slots (⟨3, 2, 0⟩ : vector Int) ∧ (⟨3, 2, 0⟩ : vector Int).size < UINT_MOD)
      ∧ (⟨3, 2, 0⟩ : vector Int).size < 4)
    ∧ ((vector_memcpy 4 (Heap.ofList [0, 0, 0, 0, 0, 0, 5, 6, 7] (0 : Int))
          ⟨3, 2, 0⟩ ⟨3, 1, 6⟩).finished = true
      ∧ ∀ i, i < (⟨3, 2, 0⟩ : vector Int).size →
          vector_get (vector_memcpy 4 (Heap.ofList [0, 0, 0, 0, 0, 0, 5, 6, 7] (0 : Int))
              ⟨3, 2, 0⟩ ⟨3, 1, 6⟩).state ⟨3, 2, 0⟩ i
            = vector_get (vector_memcpy 4 (Heap.ofList [0, 0, 0, 0, 0, 0, 5, 6, 7] (0 : Int))
              ⟨3, 2, 0⟩ ⟨3, 1, 6⟩).state ⟨3, 1, 6⟩ i
          ∧ vector_get (vector_memcpy 4 (Heap.ofList [0, 0, 0, 0, 0, 0, 5, 6, 7] (0 : Int))
              ⟨3, 2, 0⟩ ⟨3, 1, 6⟩).state ⟨3, 1, 6⟩ i
            = vector_get (Heap.ofList [0, 0, 0, 0, 0, 0, 5, 6, 7] (0 : Int)) ⟨3, 1, 6⟩ i) :=
  ⟨by decide,
    vector_memcpy_separate (Heap.ofList [0, 0, 0, 0, 0, 0, 5, 6, 7] (0 : Int)) ⟨3, 2, 0⟩ ⟨3, 1, 6⟩ 4
      (by decide) (by decide) (by decide) (by decide) (by decide)⟩

/-- C4 (the code at a failing input): destination of stride 2 at addresses 0
and 2, source of stride 2 holding 7 and 9 at addresses 4 and 6, both offsets 0
and `len = 2`. The call returns with destination element 1 equal to 7, the
source element at `src_offset`, while source element `src_offset + 1` is 9. -/
theorem vector_subvec_memcpy_repeats_first :
    (vector_subvec_memcpy 3 (Heap.ofList [0, 0, 0, 0, 7, 0, 9] (0 : Int))
        ⟨2, 2, 0⟩ 0 ⟨2, 2, 4⟩ 0 2).finished = true
      ∧ vector_get (vector_subvec_memcpy 3 (Heap.ofList [0, 0, 0, 0, 7, 0, 9] (0 : Int))
          ⟨2, 2, 0⟩ 0 ⟨2, 2, 4⟩ 0 2).state ⟨2, 2, 0⟩ (0 + 1) = 7
      ∧ vector_get (Heap.ofList [0, 0, 0, 0, 7, 0, 9] (0 : Int)) ⟨2, 2, 4⟩ (0 + 1) = 9
      ∧ vector_get (Heap.ofList [0, 0, 0, 0, 7, 0, 9] (0 : Int)) ⟨2, 2, 4⟩ 0 = 7 := by
  decide

/-- C5: whenever `new T[n]` hands back a block (at a non-null address `p`),
`vector_calloc(n)` returns a vector of size `n` and stride 1 whose elements
`0, …, n - 1` all read as the zero of `T`. -/
theorem vector_calloc_zero {T : Type} [Zero T] [Element T] (h : Heap T) (p n : Nat) (hp : p ≠ 0) :
    ∃ v h', vector_calloc h (some p) n = some (v, h')
      ∧ v.size = n ∧ v.stride = 1 ∧ ∀ i, i < n → vector_get h' v i = 0 := by
  refine ⟨⟨n, 1, p⟩, memset_zero h p n, ?_, rfl, rfl, ?_⟩
  · simp [vector_calloc, vector_alloc, hp]
  · intro i hi
    rw [vector_get, slot_stride_one _ rfl]
    exact memset_zero_at h p n i hi

/-- Witness of C5: five integers allocated at address 8 over a store of
sevens. -/
theorem vector_calloc_zero_witness :
    (8 : Nat) ≠ 0
      ∧ ∃ v h', vector_calloc (fun _ => (7 : Int)) (some 8) 5 = some (v, h')
        ∧ v.size = 5 ∧ v.stride = 1 ∧ ∀ i, i < 5 → vector_get h' v i = 0 :=
  ⟨by decide, vector_calloc_zero (fun _ => (7 : Int)) 8 5 (by decide)⟩

/-- C6 (as stated, refuted): `vector_add(a, b)` then `vector_sub(a, b)` does
not restore `a` for every pair of same-size integer vectors. First pair:
`b` is `a` itself, one element 1, which ends as 0. Second pair: the two
overlapping views `subvector(v, 0, 2)` and `subvector(v, 1, 2)` of
`v = {1, 2, 3}`; element 0 of `a` ends as -2. -/
theorem vector_add_sub_counterexample :
    ((vector_add 2 (Heap.ofList [1] (0 : Int)) ⟨1, 1, 0⟩ ⟨1, 1, 0⟩).finished = true
      ∧ (vector_sub 2 (vector_add 2 (Heap.ofList [1] (0 : Int)) ⟨1, 1, 0⟩ ⟨1, 1, 0⟩).state
          ⟨1, 1, 0⟩ ⟨1, 1, 0⟩).finished = true
      ∧ vector_get
          (vector_sub 2 (vector_add 2 (Heap.ofList [1] (0 : Int)) ⟨1, 1, 0⟩ ⟨1, 1, 0⟩).state
            ⟨1, 1, 0⟩ ⟨1, 1, 0⟩).state ⟨1, 1, 0⟩ 0 = 0
      ∧ vector_get (Heap.ofList [1] (0 : Int)) ⟨1, 1, 0⟩ 0 = 1)
    ∧ ((vector_subvector (vector_view_array 0 3 : vector Int) 0 2).size
          = (vector_subvector (vector_view_array 0 3 : vector Int) 1 2).size
      ∧ (vector_add 3 (Heap.ofList [1, 2, 3] (0 : Int))
          (vector_subvector (vector_view_array 0 3) 0 2)
          (vector_subvector (vector_view_array 0 3) 1 2)).finished = true
      ∧ (vector_sub 3
          (vector_add 3 (Heap.ofList [1, 2, 3] (0 : Int))
            (vector_subvector (vector_view_array 0 3) 0 2)
            (vector_subvector (vector_view_array 0 3) 1 2)).state
          (vector_subvector (vector_view_array 0 3) 0 2)
          (vector_subvector (vector_view_array 0 3) 1 2)).finished = true
      ∧ vector_get
          (vector_sub 3
            (vector_add 3 (Heap.ofList [1, 2, 3] (0 : Int))
              (vector_subvector (vector_view_array 0 3) 0 2)
              (vector_subvector (vector_view_array 0 3) 1 2)).state
            (vector_subvector (vector_view_array 0 3) 0 2)
            (vector_subvector (vector_view_array 0 3) 1 2)).state
          (vector_subvector (vector_view_array 0 3) 0 2) 0 = -2
      ∧ vector_get (Heap.ofList [1, 2, 3] (0 : Int))
          (vector_subvector (vector_view_array 0 3) 0 2) 0 = 1) := by
  decide

/-- C6 (amended): let `a` and `b` have the same size, below `2 ^ 32`, over an
element type whose `+` and `-` form a commutative group (the integers, or the
integers modulo `2 ^ w` of an unsigned type), with no element of `a` at the
address of an element of `b`. Then `vector_add(a, b)` and the following
`vector_sub(a, b)` both return, and every element of `a` is equal to its
original value. -/
theorem vector_add_sub_separate {T : Type} [AddCommGroup T] [Element T] (h : Heap T) (a b : vector T)
    (fuel : Nat) (hsize : a.size = b.size) (hlt : a.size < UINT_MOD) (hsep : separate a b)
    (hfuel : a.size < fuel) :
    (vector_add fuel h a b).finished = true
      ∧ (vector_sub fuel (vector_add fuel h a b).state a b).finished = true
      ∧ ∀ i, i < a.size →
          vector_get (vector_sub fuel (vector_add fuel h a b).state a b).state a i
            = vector_get h a i := by
  have hadd : vector_add fuel h a b
      = ⟨rounds (fun i s => s.write (slot a i) (s (slot a i) + s (slot b i))) a.size h, true⟩ :=
    for_loop_exits _ _ h fuel hlt hfuel
  have hsub : ∀ h1 : Heap T, vector_sub fuel h1 a b
      = ⟨rounds (fun i s => s.write (slot a i) (s (slot a i) - s (slot b i))) a.size h1, true⟩ :=
    fun h1 => for_loop_exits _ _ h1 fuel hlt hfuel
  rw [hadd, hsub, add_sub_rounds h a b a.size (fun i hi j hj => hsep i hi j (hsize ▸ hj))]
  exact ⟨rfl, rfl, fun _ _ => rfl⟩

/-- Witness of C6 (amended): `a = {1, 2}` with stride 2 at addresses 0 and 2,
`b = {5, 6}` with stride 1 at addresses 4 and 5. -/
theorem vector_add_sub_separate_witness :
    ((⟨2, 2, 0⟩ : vector Int).size = (⟨2, 1, 4⟩ : vector Int).size
      ∧ (⟨2, 2, 0⟩ : vector Int).size < UINT_MOD
      ∧ separate (⟨2, 2, 0⟩ : vector Int) ⟨2, 1, 4⟩
      ∧ (⟨2, 2, 0⟩ : vector Int).size < 3)
    ∧ ((vector_add 3 (Heap.ofList [1, 0, 2, 0, 5, 6] (0 : Int)) ⟨2, 2, 0⟩ ⟨2, 1, 4⟩).finished
          = true
      ∧ (vector_sub 3
          (vector_add 3 (Heap.ofList [1, 0, 2, 0, 5, 6] (0 : Int)) ⟨2, 2, 0⟩ ⟨2, 1, 4⟩).state
          ⟨2, 2, 0⟩ ⟨2, 1, 4⟩).finished = true
      ∧ ∀ i, i < (⟨2, 2, 0⟩ : vector Int).size →
          vector_get
            (vector_sub 3
              (vector_add 3 (Heap.ofList [1, 0, 2, 0, 5, 6] (0 : Int)) ⟨2, 2, 0⟩ ⟨2, 1, 4⟩).state
              ⟨2, 2, 0⟩ ⟨2, 1, 4⟩).state ⟨2, 2, 0⟩ i
            = vector_get (Heap.ofList [1, 0, 2, 0, 5, 6] (0 : Int)) ⟨2, 2, 0⟩ i) :=
  ⟨by decide,
    vector_add_sub_separate (Heap.ofList [1, 0, 2, 0, 5, 6] (0 : Int)) ⟨2, 2, 0⟩ ⟨2, 1, 4⟩ 3
      (by decide) (by decide) (by decide) (by decide)⟩

/-- C7: `vector_scale(v, 1)` leaves every element of the store, so every
element of `v`, unchanged, for every size and stride and however far the loop
has run; the descriptor `v` (size, stride, data) is an input the call never
writes. Below `2 ^ 32` elements the call returns. -/
theorem vector_scale_one {T : Type} [MulOneClass T] [Element T] (fuel : Nat) (h : Heap T) (v : vector T) :
    (vector_scale fuel h v 1).state = h
      ∧ (∀ i, i < v.size → vector_get (vector_scale fuel h v 1).state v i = vector_get h v i)
      ∧ (v.size < UINT_MOD → v.size < fuel → (vector_scale fuel h v 1).finished = true) := by
  have hst : (vector_scale fuel h v 1).state = h :=
    for_loop_invariant v.size _ (fun s => s = h)
      (fun i s _ _ hs => by rw [hs, mul_one, Heap.write_self]) fuel 0 h uint_mod_pos rfl
  refine ⟨hst, fun i _ => by rw [hst], fun hlt hfuel => ?_⟩
  rw [vector_scale_exits fuel h v 1 hlt hfuel]

/-- Witness of C7: three integers of stride 2 scaled by 1. -/
theorem vector_scale_one_witness :
    (vector_scale 4 (Heap.ofList [3, 0, 4, 0, 5] (0 : Int)) ⟨3, 2, 0⟩ 1).state
        = Heap.ofList [3, 0, 4, 0, 5] (0 : Int)
      ∧ (vector_scale 4 (Heap.ofList [3, 0, 4, 0, 5] (0 : Int)) ⟨3, 2, 0⟩ 1).finished = true :=
  ⟨(vector_scale_one 4 (Heap.ofList [3, 0, 4, 0, 5] (0 : Int)) ⟨3, 2, 0⟩).1,
    (vector_scale_one 4 (Heap.ofList [3, 0, 4, 0, 5] (0 : Int)) ⟨3, 2, 0⟩).2.2
      (by decide) (by decide)⟩

/-- C8 (the code at a failing input): a vector of `2 ^ 32 + 1` integers, all
1, stride 1, scaled by 0. The 32-bit loop counter wraps to 0 after
`2 ^ 32 - 1`, so `vector_scale` never returns, and the element at index
`2 ^ 32` is never written: it reads 1, not 0, however long the loop runs. -/
theorem vector_scale_zero_never_returns (fuel : Nat) :
    (vector_scale fuel (fun _ => (1 : Int)) ⟨2 ^ 32 + 1, 1, 0⟩ 0).finished = false
      ∧ vector_get (vector_scale fuel (fun _ => (1 : Int)) ⟨2 ^ 32 + 1, 1, 0⟩ 0).state
          ⟨2 ^ 32 + 1, 1, 0⟩ (2 ^ 32) = 1 := by
  constructor
  · exact for_loop_never_exits _ _ (by unfold UINT_MOD; norm_num) fuel 0 _ uint_mod_pos
  · have hslot : slot (⟨2 ^ 32 + 1, 1, 0⟩ : vector Int) (2 ^ 32) = 2 ^ 32 := by decide
    rw [vector_get, hslot]
    refine for_loop_invariant _ _ (fun s : Heap Int => s (2 ^ 32) = 1) ?_ fuel 0 _
      uint_mod_pos rfl
    intro i s hi _ hs
    have hne : (2 ^ 32 : Nat) ≠ slot (⟨2 ^ 32 + 1, 1, 0⟩ : vector Int) i := by
      simp only [slot, SIZE_MOD, addr_mod_int]
      unfold UINT_MOD at hi
      omega
    rw [Heap.write_other _ _ _ _ hne]
    exact hs

/-- C9 (the code at a failing input): a vector of `2 ^ 32 + 1` floats whose
only NaN is the element at index `2 ^ 32`. The claim has `vector_any_isnan`
return true; the 32-bit loop counter wraps to 0 after `2 ^ 32 - 1`, so the
loop reads the elements `0, …, 2 ^ 32 - 1` over and over, never the NaN, and
the call reaches no `return`, whatever the budget of loop tests. -/
theorem vector_any_isnan_never_returns (fuel : Nat) :
    2 ^ 32 < (⟨2 ^ 32 + 1, 1, 0⟩ : vector Floating).size
      ∧ isnan (vector_get (fun a => if a = 2 ^ 32 then Floating.nan else Floating.number 0)
          ⟨2 ^ 32 + 1, 1, 0⟩ (2 ^ 32)) = true
      ∧ vector_any_isnan isnan fuel
          (fun a => if a = 2 ^ 32 then Floating.nan else Floating.number 0)
          ⟨2 ^ 32 + 1, 1, 0⟩ = none := by
  refine ⟨by decide, by decide, ?_⟩
  refine any_isnan_loop_never _ _ _ (by unfold UINT_MOD; norm_num) ?_ fuel 0 uint_mod_pos
  intro i hi
  have hs : slot (⟨2 ^ 32 + 1, 1, 0⟩ : vector Floating) i = i := by
    have hm : ADDR_MOD Floating = 2 ^ 62 := rfl
    simp only [slot, SIZE_MOD, hm]
    unfold UINT_MOD at hi
    omega
  have hne : i ≠ 2 ^ 32 := by
    unfold UINT_MOD at hi
    omega
  simp only [vector_get, hs, if_neg hne, isnan]

/-- C10 (the code at a failing input): `v` of `2 ^ 32 + 2` integers, all 1,
with stride 1 (its elements at pairwise different addresses), and the sub-view
`vector_subvector(v, 1, 2 ^ 32 + 1)`, which lies inside `v`. Scaling the
sub-view by 2 never returns, the 32-bit loop counter wrapping to 0 after
`2 ^ 32 - 1`, and the parent's element `1 + 2 ^ 32`, the last of the sub-view,
is never written: it reads 1, not `1 * 2`, however long the loop runs. -/
theorem vector_scale_subvector_never_returns (fuel : Nat) :
    (1 ≤ (⟨2 ^ 32 + 2, 1, 0⟩ : vector Int).stride
        ∧ ((⟨2 ^ 32 + 2, 1, 0⟩ : vector Int).size - 1) * (⟨2 ^ 32 + 2, 1, 0⟩ : vector Int).stride
            < ADDR_MOD Int
        ∧ 1 + (2 ^ 32 + 1) ≤ (⟨2 ^ 32 + 2, 1, 0⟩ : vector Int).size
        ∧ (1 ≤ 1 + 2 ^ 32 ∧ 1 + 2 ^ 32 < 1 + (2 ^ 32 + 1)))
      ∧ vector_get (fun _ => (1 : Int)) ⟨2 ^ 32 + 2, 1, 0⟩ (1 + 2 ^ 32) * 2 = 2
      ∧ (vector_scale fuel (fun _ => (1 : Int))
          (vector_subvector ⟨2 ^ 32 + 2, 1, 0⟩ 1 (2 ^ 32 + 1)) 2).finished = false
      ∧ vector_get (vector_scale fuel (fun _ => (1 : Int))
          (vector_subvector ⟨2 ^ 32 + 2, 1, 0⟩ 1 (2 ^ 32 + 1)) 2).state
          ⟨2 ^ 32 + 2, 1, 0⟩ (1 + 2 ^ 32) = 1 := by
  refine ⟨by decide, by decide, ?_, ?_⟩
  · exact for_loop_never_exits _ _ (by unfold UINT_MOD vector_subvector; norm_num) fuel 0 _
      uint_mod_pos
  · have hslot : slot (⟨2 ^ 32 + 2, 1, 0⟩ : vector Int) (1 + 2 ^ 32) = 2 ^ 32 + 1 := by decide
    rw [vector_get, hslot]
    refine for_loop_invariant _ _ (fun s : Heap Int => s (2 ^ 32 + 1) = 1) ?_ fuel 0 _
      uint_mod_pos rfl
    intro i s hi _ hs
    have hne : (2 ^ 32 + 1 : Nat)
        ≠ slot (vector_subvector (⟨2 ^ 32 + 2, 1, 0⟩ : vector Int) 1 (2 ^ 32 + 1)) i := by
      rw [slot_subvector]
      simp only [slot, SIZE_MOD, addr_mod_int]
      unfold UINT_MOD at hi
      omega
    rw [Heap.write_other _ _ _ _ hne]
    exact hs

/-- C11 (the code at a failing input): a buffer of `2 ^ 32 + 1` integers, all
0, at address 0. `vector_view_array(base, n)` is the size-`n`, stride-1
descriptor whose element `i` is `base[i]`; on it `vector_add_constant(view, 1)`
never returns, the 32-bit loop counter wrapping to 0 after `2 ^ 32 - 1`, and
`base[2 ^ 32]` is never written: it reads 0, not `0 + 1`, however long the
loop runs. -/
theorem vector_add_constant_never_returns (fuel : Nat) :
    (vector_view_array 0 (2 ^ 32 + 1) : vector Int) = ⟨2 ^ 32 + 1, 1, 0⟩
      ∧ vector_get (fun _ => (0 : Int)) (vector_view_array 0 (2 ^ 32 + 1)) (2 ^ 32)
          = (fun _ => (0 : Int)) (0 + 2 ^ 32)
      ∧ (vector_add_constant fuel (fun _ => (0 : Int))
          (vector_view_array 0 (2 ^ 32 + 1)) 1).finished = false
      ∧ (vector_add_constant fuel (fun _ => (0 : Int))
          (vector_view_array 0 (2 ^ 32 + 1)) 1).state (0 + 2 ^ 32) = 0 := by
  refine ⟨rfl, rfl, ?_, ?_⟩
  · exact for_loop_never_exits _ _ (by unfold UINT_MOD vector_view_array; norm_num) fuel 0 _
      uint_mod_pos
  · refine for_loop_invariant _ _ (fun s : Heap Int => s (0 + 2 ^ 32) = 0) ?_ fuel 0 _
      uint_mod_pos rfl
    intro i s hi _ hs
    have hne : (0 + 2 ^ 32 : Nat) ≠ slot (vector_view_array 0 (2 ^ 32 + 1) : vector Int) i := by
      simp only [slot, vector_view_array, SIZE_MOD, addr_mod_int]
      unfold UINT_MOD at hi
      omega
    rw [Heap.write_other _ _ _ _ hne]
    exact hs

/-- C12 (as stated, refuted): the raw-buffer round trip does not hold for
every stride and every buffer. First case, stride 0: both elements of `x`
share address 0; copying the buffer `{7, 9}` at address 4 into `x` returns
with `x[0] = 9`, not `y[0] = 7`, and copying `x` out to the buffer at address 8
gives `z[0] = 9`. Second case, stride 2 with the buffer `y = {1, 2, 3}` at
address 0 lying over the storage of `x` (addresses 0, 2, 4): round 1 overwrites
`y[2]` before round 2 reads it, and `x[2]` ends as 2, not 3. -/
theorem vector_memcpy_array_counterexample :
    ((vector_memcpy_from_array 3 (Heap.ofList [0, 0, 0, 0, 7, 9] (0 : Int)) ⟨2, 0, 0⟩ 4).finished
          = true
      ∧ Heap.ofList [0, 0, 0, 0, 7, 9] (0 : Int) ((4 + 0) % ADDR_MOD Int) = 7
      ∧ vector_get
          (vector_memcpy_from_array 3 (Heap.ofList [0, 0, 0, 0, 7, 9] (0 : Int)) ⟨2, 0, 0⟩ 4).state
          ⟨2, 0, 0⟩ 0 = 9
      ∧ (vector_memcpy_to_array 3
          (vector_memcpy_from_array 3 (Heap.ofList [0, 0, 0, 0, 7, 9] (0 : Int)) ⟨2, 0, 0⟩ 4).state
          8 ⟨2, 0, 0⟩).finished = true
      ∧ (vector_memcpy_to_array 3
          (vector_memcpy_from_array 3 (Heap.ofList [0, 0, 0, 0, 7, 9] (0 : Int)) ⟨2, 0, 0⟩ 4).state
          8 ⟨2, 0, 0⟩).state ((8 + 0) % ADDR_MOD Int) = 9)
    ∧ ((vector_memcpy_from_array 4 (Heap.ofList [1, 2, 3] (0 : Int)) ⟨3, 2, 0⟩ 0).finished = true
      ∧ Heap.ofList [1, 2, 3] (0 : Int) ((0 + 2) % ADDR_MOD Int) = 3
      ∧ vector_get
          (vector_memcpy_from_array 4 (Heap.ofList [1, 2, 3] (0 : Int)) ⟨3, 2, 0⟩ 0).state
          ⟨3, 2, 0⟩ 2 = 2) := by
  decide

/-- C12 (amended): let `y` and `z` be buffers of `n = x.size` elements
(so `n * sizeof(T) < 2 ^ 64`), neither lying over the address of an element of
`x`, and, unless the stride of `x` is 1, let the elements of `x` lie at
pairwise different addresses, fewer than `2 ^ 32` of them. Then
`vector_memcpy(x, y)` returns with `vector_get(x, i) = y[i]`, the buffer `y`
as it was, and the following `vector_memcpy(z, x)` returns with `z[i] = y[i]`,
for every `i < n`. -/
theorem vector_memcpy_array_round_trip {T : Type} [Element T] (h : Heap T) (x : vector T)
    (y z fuel : Nat) (hfit : x.size < ADDR_MOD T)
    (hy : ∀ i, i < x.size → ∀ j, j < x.size → slot x i ≠ (y + j) % ADDR_MOD T)
    (hz : ∀ i, i < x.size → ∀ j, j < x.size → slot x i ≠ (z + j) % ADDR_MOD T)
    (hslow : x.stride ≠ 1 → distinct_slots x ∧ x.size < UINT_MOD)
    (hfuel : x.size < fuel) :
    (vector_memcpy_from_array fuel h x y).finished = true
      ∧ (vector_memcpy_to_array fuel (vector_memcpy_from_array fuel h x y).state z x).finished
          = true
      ∧ ∀ i, i < x.size →
          vector_get (vector_memcpy_from_array fuel h x y).state x i = h ((y + i) % ADDR_MOD T)
          ∧ (vector_memcpy_from_array fuel h x y).state ((y + i) % ADDR_MOD T)
              = h ((y + i) % ADDR_MOD T)
          ∧ (vector_memcpy_to_array fuel (vector_memcpy_from_array fuel h x y).state z x).state
              ((z + i) % ADDR_MOD T) = h ((y + i) % ADDR_MOD T) := by
  by_cases hfast : x.stride = 1
  · simp only [vector_memcpy_from_array, vector_memcpy_to_array, if_pos hfast, vector_get,
      true_and]
    intro i hi
    have h1 : memcpy h x.data y x.size (slot x i) = h ((y + i) % ADDR_MOD T) := by
      rw [slot_stride_one x hfast]
      exact memcpy_at h x.data y x.size hfit i hi
    refine ⟨h1, ?_, ?_⟩
    · apply memcpy_frame
      intro k hk e
      exact hy k hk i hi (by rw [slot_stride_one x hfast]; exact e)
    · rw [memcpy_at _ z x.data x.size hfit i hi, ← slot_stride_one x hfast]
      exact h1
  · obtain ⟨hx, hlt⟩ := hslow hfast
    have hfrom : vector_memcpy_from_array fuel h x y
        = ⟨rounds (fun i s => s.write (slot x i)
            ((fun _ w => w) (s (slot x i)) (s ((y + i) % ADDR_MOD T)))) x.size h, true⟩ := by
      simp only [vector_memcpy_from_array, if_neg hfast]
      exact for_loop_exits _ _ h fuel hlt hfuel
    have hto : ∀ h1 : Heap T, vector_memcpy_to_array fuel h1 z x
        = ⟨rounds (fun i s => s.write ((z + i) % ADDR_MOD T)
            ((fun _ w => w) (s ((z + i) % ADDR_MOD T)) (s (slot x i)))) x.size h1, true⟩ := by
      intro h1
      simp only [vector_memcpy_to_array, if_neg hfast]
      exact for_loop_exits _ _ h1 fuel hlt hfuel
    rw [hfrom, hto]
    refine ⟨rfl, rfl, fun i hi => ?_⟩
    have h1 := zip_rounds h (slot x) (fun i => (y + i) % ADDR_MOD T) (fun _ w => w) x.size hx
      (fun i hi j hj => hy j (by omega) i hi) x.size (Nat.le_refl _) i hi
    have h2 := zip_rounds
      (rounds (fun i s => s.write (slot x i)
        ((fun _ w => w) (s (slot x i)) (s ((y + i) % ADDR_MOD T)))) x.size h)
      (fun i => (z + i) % ADDR_MOD T) (slot x) (fun _ w => w) x.size
      (fun i hi j hj e => add_mod_inj z i j (by omega) (by omega) e)
      (fun i hi j hj e => hz i hi j (by omega) e.symm) x.size (Nat.le_refl _) i hi
    refine ⟨h1, ?_, h2.trans h1⟩
    exact rounds_frame _ (slot x) (fun j s p hp => Heap.write_other s _ p _ hp) h x.size _
      (fun k hk => hy k hk i hi)

/-- Witness of C12 (amended): `x` of stride 2 at addresses 0, 2, 4, the buffer
`y = {5, 6, 7}` at address 6 and the buffer `z` at address 9. -/
theorem vector_memcpy_array_round_trip_witness :
    ((⟨3, 2, 0⟩ : vector Int).size < ADDR_MOD Int
      ∧ (∀ i, i < (⟨3, 2, 0⟩ : vector Int).size → ∀ j, j < (⟨3, 2, 0⟩ : vector Int).size →
          slot (⟨3, 2, 0⟩ : vector Int) i ≠ (6 + j) % ADDR_MOD Int)
      ∧ (∀ i, i < (⟨3, 2, 0⟩ : vector Int).size → ∀ j, j < (⟨3, 2, 0⟩ : vector Int).size →
          slot (⟨3, 2, 0⟩ : vector Int) i ≠ (9 + j) % ADDR_MOD Int)
      ∧ ((⟨3, 2, 0⟩ : vector Int).stride ≠ 1 →
          distinct_slots (⟨3, 2, 0⟩ : vector Int) ∧ (⟨3, 2, 0⟩ : vector Int).size < UINT_MOD)
      ∧ (⟨3, 2, 0⟩ : vector Int).size < 4)
    ∧ ((vector_memcpy_from_array 4 (Heap.ofList [0, 0, 0, 0, 0, 0, 5, 6, 7] (0 : Int))
          ⟨3, 2, 0⟩ 6).finished = true
      ∧ (vector_memcpy_to_array 4
          (vector_memcpy_from_array 4 (Heap.ofList [0, 0, 0, 0, 0, 0, 5, 6, 7] (0 : Int))
            ⟨3, 2, 0⟩ 6).state 9 ⟨3, 2, 0⟩).finished = true
      ∧ ∀ i, i < (⟨3, 2, 0⟩ : vector Int).size →
          vector_get (vector_memcpy_from_array 4
              (Heap.ofList [0, 0, 0, 0, 0, 0, 5, 6, 7] (0 : Int)) ⟨3, 2, 0⟩ 6).state ⟨3, 2, 0⟩ i
            = Heap.ofList [0, 0, 0, 0, 0, 0, 5, 6, 7] (0 : Int) ((6 + i) % ADDR_MOD Int)
          ∧ (vector_memcpy_from_array 4 (Heap.ofList [0, 0, 0, 0, 0, 0, 5, 6, 7] (0 : Int))
              ⟨3, 2, 0⟩ 6).state ((6 + i) % ADDR_MOD Int)
            = Heap.ofList [0, 0, 0, 0, 0, 0, 5, 6, 7] (0 : Int) ((6 + i) % ADDR_MOD Int)
          ∧ (vector_memcpy_to_array 4
              (vector_memcpy_from_array 4 (Heap.ofList [0, 0, 0, 0, 0, 0, 5, 6, 7] (0 : Int))
                ⟨3, 2, 0⟩ 6).state 9 ⟨3, 2, 0⟩).state ((9 + i) % ADDR_MOD Int)
            = Heap.ofList [0, 0, 0, 0, 0, 0, 5, 6, 7] (0 : Int) ((6 + i) % ADDR_MOD Int)) :=
  ⟨by decide,
    vector_memcpy_array_round_trip (Heap.ofList [0, 0, 0, 0, 0, 0, 5, 6, 7] (0 : Int))
      ⟨3, 2, 0⟩ 6 9 4 (by decide) (by decide) (by decide) (by decide) (by decide)⟩

/-- C13 (as stated, refuted): `vector_add(a, b)` does not leave
`a[i] + b[i]` in every element for every pair of same-size vectors. First
pair, stride 0 for `a`: both elements of `a` share address 0, holding 1, and
`b = {5, 6}`; the call returns with `a[0] = 12`, not `1 + 5`. Second pair, the
overlapping views `a = subvector(v, 1, 2)` and `b = subvector(v, 0, 2)` of
`v = {1, 2, 3}`: round 0 overwrites `b[1]`, and `a[1]` ends as 6, not
`3 + 2`. -/
theorem vector_add_counterexample :
    ((⟨2, 0, 0⟩ : vector Int).size = (⟨2, 1, 4⟩ : vector Int).size
      ∧ (vector_add 3 (Heap.ofList [1, 0, 0, 0, 5, 6] (0 : Int)) ⟨2, 0, 0⟩ ⟨2, 1, 4⟩).finished
          = true
      ∧ vector_get (Heap.ofList [1, 0, 0, 0, 5, 6] (0 : Int)) ⟨2, 0, 0⟩ 0 = 1
      ∧ vector_get (Heap.ofList [1, 0, 0, 0, 5, 6] (0 : Int)) ⟨2, 1, 4⟩ 0 = 5
      ∧ vector_get
          (vector_add 3 (Heap.ofList [1, 0, 0, 0, 5, 6] (0 : Int)) ⟨2, 0, 0⟩ ⟨2, 1, 4⟩).state
          ⟨2, 0, 0⟩ 0 = 12)
    ∧ ((vector_subvector (vector_view_array 0 3 : vector Int) 1 2).size
          = (vector_subvector (vector_view_array 0 3 : vector Int) 0 2).size
      ∧ (vector_add 3 (Heap.ofList [1, 2, 3] (0 : Int))
          (vector_subvector (vector_view_array 0 3) 1 2)
          (vector_subvector (vector_view_array 0 3) 0 2)).finished = true
      ∧ vector_get (Heap.ofList [1, 2, 3] (0 : Int))
          (vector_subvector (vector_view_array 0 3) 1 2) 1 = 3
      ∧ vector_get (Heap.ofList [1, 2, 3] (0 : Int))
          (vector_subvector (vector_view_array 0 3) 0 2) 1 = 2
      ∧ vector_get
          (vector_add 3 (Heap.ofList [1, 2, 3] (0 : Int))
            (vector_subvector (vector_view_array 0 3) 1 2)
            (vector_subvector (vector_view_array 0 3) 0 2)).state
          (vector_subvector (vector_view_array 0 3) 1 2) 1 = 6) := by
  decide

/-- C13 (amended): let the elements of `a` lie at pairwise different
addresses (as they do when the stride is at least 1 and
`(size - 1) * stride * sizeof(T) < 2 ^ 64`), fewer than `2 ^ 32` of them, and let no element `b[i]` lie at the
address of an element `a[j]` with `j < i` (as for vectors of separate storage,
and for `b = a`). Then `vector_add(a, b)` returns, and afterwards
`vector_get(a, i)` is the original `a[i]` plus the original `b[i]` for every
`i < a.size`; the descriptor of `a` is an input the call never writes. -/
theorem vector_add_elementwise {T : Type} [Add T] [Element T] (h : Heap T) (a b : vector T) (fuel : Nat)
    (ha : distinct_slots a) (hlt : a.size < UINT_MOD)
    (hsep : ∀ i, i < a.size → ∀ j, j < i → slot a j ≠ slot b i) (hfuel : a.size < fuel) :
    (vector_add fuel h a b).finished = true
      ∧ ∀ i, i < a.size →
          vector_get (vector_add fuel h a b).state a i = vector_get h a i + vector_get h b i := by
  have hrun : vector_add fuel h a b
      = ⟨rounds (fun i s => s.write (slot a i) (s (slot a i) + s (slot b i))) a.size h, true⟩ :=
    for_loop_exits _ _ h fuel hlt hfuel
  rw [hrun]
  exact ⟨rfl, fun i hi =>
    zip_rounds h (slot a) (slot b) (fun u w => u + w) a.size ha hsep a.size (Nat.le_refl _) i hi⟩

/-- Witness of C13 (amended): `a = {1, 2, 3}` with stride 2 at addresses 0, 2,
4, and `b = {10, 20, 30}` with stride 1 at addresses 5, 6, 7. -/
theorem vector_add_elementwise_witness :
    (distinct_slots (⟨3, 2, 0⟩ : vector Int) ∧ (⟨3, 2, 0⟩ : vector Int).size < UINT_MOD
      ∧ (∀ i, i < (⟨3, 2, 0⟩ : vector Int).size → ∀ j, j < i →
          slot (⟨3, 2, 0⟩ : vector Int) j ≠ slot (⟨3, 1, 5⟩ : vector Int) i)
      ∧ (⟨3, 2, 0⟩ : vector Int).size < 4)
    ∧ ((vector_add 4 (Heap.ofList [1, 0, 2, 0, 3, 10, 20, 30] (0 : Int))
          ⟨3, 2, 0⟩ ⟨3, 1, 5⟩).finished = true
      ∧ ∀ i, i < (⟨3, 2, 0⟩ : vector Int).size →
          vector_get (vector_add 4 (Heap.ofList [1, 0, 2, 0, 3, 10, 20, 30] (0 : Int))
              ⟨3, 2, 0⟩ ⟨3, 1, 5⟩).state ⟨3, 2, 0⟩ i
            = vector_get (Heap.ofList [1, 0, 2, 0, 3, 10, 20, 30] (0 : Int)) ⟨3, 2, 0⟩ i
              + vector_get (Heap.ofList [1, 0, 2, 0, 3, 10, 20, 30] (0 : Int)) ⟨3, 1, 5⟩ i) :=
  ⟨by decide,
    vector_add_elementwise (Heap.ofList [1, 0, 2, 0, 3, 10, 20, 30] (0 : Int))
      ⟨3, 2, 0⟩ ⟨3, 1, 5⟩ 4 (by decide) (by decide) (by decide) (by decide)⟩

/-- C14 (the code at a failing input): a vector whose `size` field holds
`2 ^ 32` (stride 1). The loop counter of `vector_set_all` is an `unsigned int`:
after `2 ^ 32 - 1` it wraps to 0, the test `i < v->size` stays true, and the
call never terminates, whatever the budget of loop tests. -/
theorem vector_set_all_never_terminates (fuel : Nat) :
    (vector_set_all fuel (fun _ => (0 : Int)) ⟨2 ^ 32, 1, 0⟩ 5).finished = false :=
  for_loop_never_exits _ _ (by unfold UINT_MOD; norm_num) fuel 0 _ uint_mod_pos

/-- C16 (the code at a failing input): destination of `2 ^ 32 + 1` zeros with
stride 1 at address 0, source of stride 2 whose element 0 is 7 at address
`2 ^ 33`, both offsets 0 and `len = 2 ^ 32 + 1`. The element-by-element path is
taken; its 32-bit loop counter wraps to 0 after `2 ^ 32 - 1`, so the call
never returns and destination element `0 + 2 ^ 32` is never written: it reads
0, not the source element 7, however long the loop runs. -/
theorem vector_subvec_memcpy_slow_never_returns (fuel : Nat) :
    ¬((⟨2 ^ 32 + 1, 1, 0⟩ : vector Int).stride = 1 ∧ (⟨1, 2, 2 ^ 33⟩ : vector Int).stride = 1)
      ∧ vector_get (fun a => if a = 2 ^ 33 then (7 : Int) else 0) ⟨1, 2, 2 ^ 33⟩ 0 = 7
      ∧ (vector_subvec_memcpy fuel (fun a => if a = 2 ^ 33 then (7 : Int) else 0)
          ⟨2 ^ 32 + 1, 1, 0⟩ 0 ⟨1, 2, 2 ^ 33⟩ 0 (2 ^ 32 + 1)).finished = false
      ∧ vector_get
          (vector_subvec_memcpy fuel (fun a => if a = 2 ^ 33 then (7 : Int) else 0)
            ⟨2 ^ 32 + 1, 1, 0⟩ 0 ⟨1, 2, 2 ^ 33⟩ 0 (2 ^ 32 + 1)).state
          ⟨2 ^ 32 + 1, 1, 0⟩ (0 + 2 ^ 32) = 0 := by
  have hslow : ¬((⟨2 ^ 32 + 1, 1, 0⟩ : vector Int).stride = 1
      ∧ (⟨1, 2, 2 ^ 33⟩ : vector Int).stride = 1) := by decide
  refine ⟨hslow, by decide, ?_, ?_⟩
  · simp only [vector_subvec_memcpy, if_neg hslow]
    exact for_loop_never_exits _ _ (by unfold UINT_MOD; norm_num) fuel 0 _ uint_mod_pos
  · have hslot : slot (⟨2 ^ 32 + 1, 1, 0⟩ : vector Int) (0 + 2 ^ 32) = 2 ^ 32 := by decide
    simp only [vector_subvec_memcpy, if_neg hslow]
    rw [vector_get, hslot]
    refine for_loop_invariant _ _ (fun s : Heap Int => s (2 ^ 32) = 0) ?_ fuel 0 _
      uint_mod_pos (by decide)
    intro i s hi _ hs
    have hne : (2 ^ 32 : Nat)
        ≠ slot (⟨2 ^ 32 + 1, 1, 0⟩ : vector Int) ((i + 0) % SIZE_MOD) := by
      simp only [slot, SIZE_MOD, addr_mod_int]
      unfold UINT_MOD at hi
      omega
    simp only [vector_set]
    rw [Heap.write_other _ _ _ _ hne]
    exact hs

/-- C17 (as stated, refuted): the owning vector that `vector_alloc(3)` builds
on the block at address 8. After `vector_free` its `data` is still 8, not
null, and a second `vector_free` on the same descriptor is no no-op: it hands
address 8 to `delete[]` a second time. -/
theorem vector_free_counterexample :
    (vector_alloc (some 8) 3 : Option (vector Int)) = some ⟨3, 1, 8⟩
      ∧ vector_free [] (⟨3, 1, 8⟩ : vector Int) = (⟨3, 1, 8⟩, [8])
      ∧ (vector_free [] (⟨3, 1, 8⟩ : vector Int)).1.data ≠ 0
      ∧ vector_free (vector_free [] (⟨3, 1, 8⟩ : vector Int)).2
          (vector_free [] (⟨3, 1, 8⟩ : vector Int)).1 = (⟨3, 1, 8⟩, [8, 8])
      ∧ (vector_free (vector_free [] (⟨3, 1, 8⟩ : vector Int)).2
          (vector_free [] (⟨3, 1, 8⟩ : vector Int)).1).2
        ≠ (vector_free [] (⟨3, 1, 8⟩ : vector Int)).2 := by
  decide

/-- C17 (amended): `vector_free(x)` leaves the descriptor as it is, `data`
included. It is a no-op when `x.data` is null. When `x.data` is not null it
hands `x.data` to `delete[]` once, and a second `vector_free(x)` on the same
descriptor hands the same address to `delete[]` once more: releasing the
storage exactly once is left to the caller. -/
theorem vector_free_effect {T : Type} (released : List Nat) (x : vector T) :
    (vector_free released x).1 = x
      ∧ (x.data = 0 → (vector_free released x).2 = released)
      ∧ (x.data ≠ 0 →
          (vector_free released x).2 = released ++ [x.data]
          ∧ (vector_free (vector_free released x).2 (vector_free released x).1).2
              = released ++ [x.data, x.data]) := by
  by_cases hx : x.data = 0
  · simp [vector_free, hx]
  · simp [vector_free, hx]

/-- Witness of C17 (amended): the vector at address 8 released twice after an
earlier release of address 4, and a descriptor with null `data`. -/
theorem vector_free_effect_witness :
    ((⟨3, 1, 8⟩ : vector Int).data ≠ 0
      ∧ (vector_free [4] (⟨3, 1, 8⟩ : vector Int)).2 = [4] ++ [(⟨3, 1, 8⟩ : vector Int).data]
      ∧ (vector_free (vector_free [4] (⟨3, 1, 8⟩ : vector Int)).2
          (vector_free [4] (⟨3, 1, 8⟩ : vector Int)).1).2
        = [4] ++ [(⟨3, 1, 8⟩ : vector Int).data, (⟨3, 1, 8⟩ : vector Int).data])
    ∧ ((⟨0, 0, 0⟩ : vector Int).data = 0
      ∧ (vector_free [4] (⟨0, 0, 0⟩ : vector Int)).2 = [4]) :=
  ⟨⟨by decide, (vector_free_effect [4] (⟨3, 1, 8⟩ : vector Int)).2.2 (by decide)⟩,
    ⟨rfl, (vector_free_effect [4] (⟨0, 0, 0⟩ : vector Int)).2.1 rfl⟩⟩

/-- C18 (as stated, refuted): a stride of at least 1 does not keep the
elements apart. First vector, stride `2 ^ 63` and size 3: the product
`2 * 2 ^ 63` wraps to 0 in `size_t`, so elements 0 and 2 share address 0, and
`vector_set(v, 0, 9)` changes `vector_get(v, 2)` from 5 to 9. Second vector,
stride `2 ^ 61` and size 2 over elements of 8 bytes: the byte offset
`2 ^ 61 * 8` of element 1 wraps to 0, and `vector_set(v, 0, 9)` changes
`vector_get(v, 1)` from 5 to 9. -/
theorem vector_set_frame_counterexample :
    (1 ≤ (⟨3, 2 ^ 63, 0⟩ : vector Int).stride
      ∧ 0 < (⟨3, 2 ^ 63, 0⟩ : vector Int).size
      ∧ 2 < (⟨3, 2 ^ 63, 0⟩ : vector Int).size
      ∧ (2 : Nat) ≠ 0
      ∧ vector_get (Heap.ofList [5] (0 : Int)) ⟨3, 2 ^ 63, 0⟩ 2 = 5
      ∧ vector_get (vector_set (Heap.ofList [5] (0 : Int)) ⟨3, 2 ^ 63, 0⟩ 0 9) ⟨3, 2 ^ 63, 0⟩ 2
          = 9)
    ∧ (1 ≤ (⟨2, 2 ^ 61, 0⟩ : vector Int).stride
      ∧ 0 < (⟨2, 2 ^ 61, 0⟩ : vector Int).size
      ∧ 1 < (⟨2, 2 ^ 61, 0⟩ : vector Int).size
      ∧ (1 : Nat) ≠ 0
      ∧ (2 ^ 61 * SIZEOF Int) % SIZE_MOD = 0
      ∧ vector_get (Heap.ofList [5] (0 : Int)) ⟨2, 2 ^ 61, 0⟩ 1 = 5
      ∧ vector_get (vector_set (Heap.ofList [5] (0 : Int)) ⟨2, 2 ^ 61, 0⟩ 0 9) ⟨2, 2 ^ 61, 0⟩ 1
          = 9) := by
  decide

/-- C18 (amended): for a vector `v` with stride at least 1 whose last element
lies less than `2 ^ 64` bytes from the first
(`(size - 1) * stride * sizeof(T) < 2 ^ 64`), and `i < v.size`,
`vector_set(v, i, x)` leaves `vector_get(v, j)` unchanged for every
`j < v.size` other than `i`. For every vector it changes no address other than
that of `data[i * stride]`, and the descriptor is an input it never writes.
With stride 0 all logical elements share one address: every `vector_get(v, j)`
then reads `x`. -/
theorem vector_set_frame {T : Type} [Element T] (h : Heap T) (v : vector T) (i : Nat) (x : T) :
    (1 ≤ v.stride → (v.size - 1) * v.stride < ADDR_MOD T → i < v.size →
        ∀ j, j < v.size → j ≠ i → vector_get (vector_set h v i x) v j = vector_get h v j)
      ∧ (∀ p, p ≠ slot v i → vector_set h v i x p = h p)
      ∧ (v.stride = 0 → ∀ j, vector_get (vector_set h v i x) v j = x) := by
  refine ⟨fun hs hfit hi j hj hji => ?_, fun p hp => Heap.write_other h _ p x hp,
    fun hs j => ?_⟩
  · have hne : slot v j ≠ slot v i :=
      fun e => hji (distinct_slots_of_stride v hs hfit j hj i hi e)
    simp only [vector_get, vector_set]
    exact Heap.write_other h _ _ x hne
  · simp only [vector_get, vector_set, slot_stride_zero v hs]
    exact Heap.write_same h _ x

/-- Witness of C18 (amended): writing index 1 of `{5, 6, 7}` with stride 2, and
writing index 0 of a stride-0 vector of size 2. -/
theorem vector_set_frame_witness :
    ((1 ≤ (⟨3, 2, 0⟩ : vector Int).stride
        ∧ ((⟨3, 2, 0⟩ : vector Int).size - 1) * (⟨3, 2, 0⟩ : vector Int).stride < ADDR_MOD Int
        ∧ 1 < (⟨3, 2, 0⟩ : vector Int).size)
      ∧ ∀ j, j < (⟨3, 2, 0⟩ : vector Int).size → j ≠ 1 →
          vector_get (vector_set (Heap.ofList [5, 0, 6, 0, 7] (0 : Int)) ⟨3, 2, 0⟩ 1 9)
              ⟨3, 2, 0⟩ j
            = vector_get (Heap.ofList [5, 0, 6, 0, 7] (0 : Int)) ⟨3, 2, 0⟩ j)
    ∧ ((⟨2, 0, 0⟩ : vector Int).stride = 0
      ∧ ∀ j, vector_get (vector_set (Heap.ofList [5] (0 : Int)) ⟨2, 0, 0⟩ 0 9) ⟨2, 0, 0⟩ j = 9) :=
  ⟨⟨by decide,
      (vector_set_frame (Heap.ofList [5, 0, 6, 0, 7] (0 : Int)) ⟨3, 2, 0⟩ 1 9).1
        (by decide) (by decide) (by decide)⟩,
    ⟨rfl, (vector_set_frame (Heap.ofList [5] (0 : Int)) ⟨2, 0, 0⟩ 0 9).2.2 rfl⟩⟩

/-- C19: a sub-view of a sub-view is the sub-view at the sum of the offsets:
`vector_subvector(vector_subvector(v, o1, n1), o2, n2)` and
`vector_subvector(v, o1 + o2, n2)` are the same (size, stride, data)
descriptor, for every stride of `v`, also when the caller's sum `o1 + o2` wraps
in `size_t`. -/
theorem vector_subvector_subvector {T : Type} [Element T] (v : vector T) (o1 n1 o2 n2 : Nat) :
    vector_subvector (vector_subvector v o1 n1) o2 n2 = vector_subvector v (o1 + o2) n2
      ∧ vector_subvector (vector_subvector v o1 n1) o2 n2
          = vector_subvector v ((o1 + o2) % SIZE_MOD) n2 := by
  refine ⟨vector_subvector_compose v o1 n1 o2 n2, ?_⟩
  rw [vector_subvector_compose]
  simp only [vector_subvector, vector.mk.injEq, true_and, and_true]
  rw [Nat.mod_mul_mod]

/-- C20: a vector obtained from `vector_alloc`, `vector_calloc` or either
`vector_view_array`, followed by any chain of `vector_subvector` calls, has
stride 1. The operations that hand out a descriptor keep the stride
(`vector_subvector` copies it, `vector_free` leaves the descriptor alone), the
others return no descriptor. Hence for two such vectors `vector_memcpy` and
`vector_subvec_memcpy` are the bulk `memcpy`, never the element-by-element
loop. -/
theorem constructed_stride_one {T : Type} [Zero T] [Element T] (c1 c2 : Construction T) (x y : vector T)
    (hx : Construction.result c1 = some x) (hy : Construction.result c2 = some y) :
    x.stride = 1
      ∧ (∀ offset n, (vector_subvector x offset n).stride = x.stride)
      ∧ (∀ released, (vector_free released x).1.stride = x.stride)
      ∧ (∀ fuel h, vector_memcpy fuel h x y = ⟨memcpy h x.data y.data x.size, true⟩)
      ∧ (∀ fuel h dest_offset src_offset len,
          vector_subvec_memcpy fuel h x dest_offset y src_offset len
            = ⟨memcpy h ((x.data + dest_offset) % ADDR_MOD T)
                ((y.data + src_offset) % ADDR_MOD T) len, true⟩) := by
  have h1 := construction_stride c1 x hx
  have h2 := construction_stride c2 y hy
  refine ⟨h1, fun _ _ => rfl, fun released => ?_, fun fuel h => ?_, fun fuel h d s l => ?_⟩
  · by_cases hd : x.data = 0 <;> simp [vector_free, hd]
  · simp only [vector_memcpy, if_pos (And.intro h1 h2)]
  · simp only [vector_subvec_memcpy, if_pos (And.intro h1 h2)]

/-- Witness of C20: a sub-view of a sub-view of a `vector_calloc` result, and
a `vector_view_array` result. -/
theorem constructed_stride_one_witness :
    (Construction.result
        (.subvector (.subvector (.calloc (fun _ => (7 : Int)) (some 8) 5) 1 3) 1 2)
        = some ⟨2, 1, 10⟩
      ∧ Construction.result (.view_array 20 4 : Construction Int) = some ⟨4, 1, 20⟩)
    ∧ ((⟨2, 1, 10⟩ : vector Int).stride = 1
      ∧ (∀ offset n, (vector_subvector (⟨2, 1, 10⟩ : vector Int) offset n).stride
          = (⟨2, 1, 10⟩ : vector Int).stride)
      ∧ (∀ released, (vector_free released (⟨2, 1, 10⟩ : vector Int)).1.stride
          = (⟨2, 1, 10⟩ : vector Int).stride)
      ∧ (∀ fuel h, vector_memcpy fuel h (⟨2, 1, 10⟩ : vector Int) ⟨4, 1, 20⟩
          = ⟨memcpy h (⟨2, 1, 10⟩ : vector Int).data (⟨4, 1, 20⟩ : vector Int).data
              (⟨2, 1, 10⟩ : vector Int).size, true⟩)
      ∧ (∀ fuel h dest_offset src_offset len,
          vector_subvec_memcpy fuel h (⟨2, 1, 10⟩ : vector Int) dest_offset ⟨4, 1, 20⟩
              src_offset len
            = ⟨memcpy h (((⟨2, 1, 10⟩ : vector Int).data + dest_offset) % ADDR_MOD Int)
                (((⟨4, 1, 20⟩ : vector Int).data + src_offset) % ADDR_MOD Int) len, true⟩)) :=
  ⟨⟨by decide, by decide⟩,
    constructed_stride_one
      (.subvector (.subvector (.calloc (fun _ => (7 : Int)) (some 8) 5) 1 3) 1 2)
      (.view_array 20 4) ⟨2, 1, 10⟩ ⟨4, 1, 20⟩ (by decide) (by decide)⟩

end gsl
